import Mathlib

/-!
Verification development for the omega-match multi-pattern matcher core.

The C sources are shallowly embedded: machine integers become `Nat` with
explicit `% 2^w` (or `&&&` masks) where the C code wraps, byte buffers become
`List Nat` (each element a byte value), raw memory reads beyond a buffer are
modelled by an explicit `junk` default byte, and fallible operations return
`Option`.  Each definition is translated from the named C function.
-/

set_option maxRecDepth 100000
set_option synthInstance.maxSize 1024
set_option synthInstance.maxHeartbeats 1000000

namespace OmegaMatch

/-- 2^32, the modulus of `uint32_t` arithmetic. -/
def U32 : Nat := 4294967296

/-- 2^64, the modulus of `uint64_t` / `size_t` arithmetic. -/
def U64 : Nat := 18446744073709551616

/-- `fast_gram_hash` from hash.h: murmur3-style finalizer over a 32-bit gram.
Each C multiplication wraps modulo 2^32; xor-shifts stay below 2^32. -/
def fast_gram_hash (gram : Nat) : Nat :=
  let g1 := gram ^^^ (gram >>> 16)
  let g2 := (g1 * 0x85ebca6b) % U32
  let g3 := g2 ^^^ (g2 >>> 13)
  let g4 := (g3 * 0xc2b2ae35) % U32
  g4 ^^^ (g4 >>> 16)

/-- `hash_uint32` from hash.h: `(x ^ 0x9e3779b9) * FNV1A_PRIME` in `uint32_t`. -/
def hash_uint32 (x : Nat) : Nat :=
  ((x ^^^ 0x9e3779b9) * 0x01000193) % U32

/-- `pack_gram` from util.h: first four bytes packed big-endian into 32 bits. -/
def pack_gram (b0 b1 b2 b3 : Nat) : Nat :=
  (b0 <<< 24) ||| (b1 <<< 16) ||| (b2 <<< 8) ||| b3

/-- The `_wordmap` table from matcher.c: word characters are `[A-Za-z0-9_]`. -/
def isWord (c : Nat) : Bool :=
  decide ((65 ≤ c ∧ c ≤ 90) ∨ (97 ≤ c ∧ c ≤ 122) ∨ (48 ≤ c ∧ c ≤ 57) ∨ c = 95)

/-- `is_line_end` from matcher.c: `'\n'` or `'\r'`. -/
def is_line_end (c : Nat) : Bool := c == 10 || c == 13

/-- `is_at_line_start` from matcher.c; `junk` models the byte a C read would
return outside the buffer (never reached here since `pos ≤ haystack length`). -/
def is_at_line_start (hay : List Nat) (junk pos : Nat) : Bool :=
  if pos = 0 then true else is_line_end (hay.getD (pos - 1) junk)

/-- `is_at_line_end` from matcher.c. -/
def is_at_line_end (hay : List Nat) (junk hsize pos len : Nat) : Bool :=
  if hsize ≤ pos + len then true else is_line_end (hay.getD (pos + len) junk)

/-- Little-endian `uint32_t` read from a byte buffer (C pointer cast reads). -/
def readU32 (f : List Nat) (off : Nat) : Nat :=
  f.getD off 0 + 256 * f.getD (off + 1) 0 + 65536 * f.getD (off + 2) 0 +
    16777216 * f.getD (off + 3) 0

/-- Little-endian `uint64_t` read from a byte buffer. -/
def readU64 (f : List Nat) (off : Nat) : Nat :=
  readU32 f off + 4294967296 * readU32 f (off + 4)

/-- `n` consecutive bytes starting at `off` (used for magic comparisons). -/
def readBytes (f : List Nat) (off n : Nat) : List Nat :=
  (List.range n).map (fun i => f.getD (off + i) 0)

/-- The contiguous slice `buf[off .. off+len)` of a byte buffer. -/
def listSlice (l : List Nat) (off len : Nat) : List Nat :=
  (l.drop off).take len

/-! ## Bloom filter (bloom.c / dedupe_set.c lines 141-237) -/

/-- `bloom_filter_t`: bit count plus the array of 64-bit words, the latter as a
function from word index to word value. -/
structure BloomFilter where
  bit_size : Nat
  bits : Nat → Nat

/-- The C statement `bits[pos >> 6] |= 1ULL << (pos & 63)`. -/
def setBit (bits : Nat → Nat) (pos : Nat) : Nat → Nat :=
  fun w => if w = pos >>> 6 then bits w ||| (1 <<< (pos &&& 63)) else bits w

/-- The C expression `(bits[pos >> 6] >> (pos & 63)) & 1` as a boolean. -/
def getBit (bits : Nat → Nat) (pos : Nat) : Bool :=
  ((bits (pos >>> 6)) >>> (pos &&& 63)) &&& 1 == 1

/-- `bloom_filter_add`: sets three bits, computing the second and third
position incrementally from the masked stride `h2 & mask`.  Additions wrap in
`uint32_t` as in C. -/
def bloom_filter_add (bf : BloomFilter) (key : Nat) : BloomFilter :=
  let h1 := fast_gram_hash key
  let h2 := (key * 0x9e3779b1) % U32
  let mask := bf.bit_size - 1
  let p0 := h1 &&& mask
  let p1 := ((p0 + (h2 &&& mask)) % U32) &&& mask
  let p2 := ((p1 + (h2 &&& mask)) % U32) &&& mask
  { bf with bits := setBit (setBit (setBit bf.bits p0) p1) p2 }

/-- `bloom_filter_query`: tests the three positions `h1`, `h1+h2`, `h1+2*h2`,
each computed in `uint32_t` and masked by `bit_size - 1`. -/
def bloom_filter_query (bf : BloomFilter) (key : Nat) : Bool :=
  let h1 := fast_gram_hash key
  let h2 := (key * 0x9e3779b1) % U32
  let mask := bf.bit_size - 1
  let p0 := h1 &&& mask
  let p1 := ((h1 + h2) % U32) &&& mask
  let p2 := ((h1 + (2 * h2) % U32) % U32) &&& mask
  getBit bf.bits p0 && getBit bf.bits p1 && getBit bf.bits p2

/-! Helper lemmas about bit tests. -/

lemma shr_and_one_eq (x s : Nat) : ((x >>> s) &&& 1 == 1) = x.testBit s := by
  simp [Nat.testBit, Nat.and_comm]

lemma testBit_set_self (x s : Nat) : (x ||| (1 <<< s)).testBit s = true := by
  simp [Nat.testBit_or, Nat.testBit_shiftLeft]

lemma testBit_or_mono {x y : Nat} {s : Nat} (h : x.testBit s = true) :
    (x ||| y).testBit s = true := by
  simp [Nat.testBit_or, h]

/-- Masking by `bit_size - 1` is reduction mod the power of two `bit_size`. -/
lemma and_mask_eq_mod {x j : Nat} : x &&& (2 ^ j - 1) = x % 2 ^ j :=
  Nat.and_pow_two_sub_one_eq_mod x j

lemma pow_dvd_U32 {j : Nat} (hj : j ≤ 32) : (2 ^ j : Nat) ∣ U32 := by
  have h : (U32 : Nat) = 2 ^ 32 := by norm_num [U32]
  rw [h]
  exact pow_dvd_pow 2 hj

lemma getBit_setBit_self (bits : Nat → Nat) (p : Nat) :
    getBit (setBit bits p) p = true := by
  rw [getBit, setBit, if_pos rfl, shr_and_one_eq]
  exact testBit_set_self _ _

lemma getBit_setBit_mono (bits : Nat → Nat) (p q : Nat)
    (h : getBit bits q = true) : getBit (setBit bits p) q = true := by
  rw [getBit, setBit, shr_and_one_eq]
  rw [getBit, shr_and_one_eq] at h
  by_cases hw : q >>> 6 = p >>> 6
  · rw [if_pos hw]
    exact testBit_or_mono h
  · rw [if_neg hw]
    exact h

/-- C6 helper: masked incremental position addition agrees with the direct
(wrapping) sum, because the power-of-two mask divides `2^32`. -/
lemma masked_stride_step {j : Nat} (hj : j ≤ 32) (a b : Nat) :
    (((a &&& (2 ^ j - 1)) + (b &&& (2 ^ j - 1))) % U32) &&& (2 ^ j - 1) =
      (a + b) % 2 ^ j := by
  rw [and_mask_eq_mod, and_mask_eq_mod, and_mask_eq_mod,
    Nat.mod_mod_of_dvd _ (pow_dvd_U32 hj), ← Nat.add_mod]

lemma query_of_three_set (bits : Nat → Nat) (a0 a1 a2 q0 q1 q2 : Nat)
    (h0 : a0 = q0) (h1 : a1 = q1) (h2 : a2 = q2) :
    (getBit (setBit (setBit (setBit bits a0) a1) a2) q0 &&
      getBit (setBit (setBit (setBit bits a0) a1) a2) q1 &&
      getBit (setBit (setBit (setBit bits a0) a1) a2) q2) = true := by
  subst h0; subst h1; subst h2
  simp only [Bool.and_eq_true]
  exact ⟨⟨getBit_setBit_mono _ _ _ (getBit_setBit_mono _ _ _ (getBit_setBit_self _ _)),
    getBit_setBit_mono _ _ _ (getBit_setBit_self _ _)⟩, getBit_setBit_self _ _⟩

/-- C6: the Bloom filter has no false negatives.  For every key inserted by
`bloom_filter_add`, a subsequent `bloom_filter_query` of that key returns
true: the three bit positions set by insertion (computed incrementally with
the masked stride) coincide with the three positions `h1`, `h1 + h2`,
`h1 + 2*h2` (each taken in `uint32` arithmetic and masked by `bit_size - 1`)
that the query tests.  The bit size is a power of two, as established by
`bloom_filter_init`. -/
theorem bloom_add_query_true (bf : BloomFilter) (key j : Nat)
    (hj : j ≤ 32) (hsz : bf.bit_size = 2 ^ j) :
    bloom_filter_query (bloom_filter_add bf key) key = true := by
  rw [bloom_filter_query, bloom_filter_add]
  simp only [hsz]
  set h1 := fast_gram_hash key with hh1
  set h2 := (key * 0x9e3779b1) % U32 with hh2
  apply query_of_three_set
  · rfl
  · -- incremental second position = (h1 + h2) mod 2^j = closed-form position
    rw [masked_stride_step hj h1 h2, and_mask_eq_mod,
      Nat.mod_mod_of_dvd _ (pow_dvd_U32 hj)]
  · -- incremental third position = (h1 + 2*h2) mod 2^j = closed-form position
    rw [masked_stride_step hj h1 h2]
    conv_lhs =>
      rw [show (h1 + h2) % 2 ^ j = ((h1 + h2) % 2 ^ j) &&& (2 ^ j - 1) from
        (Nat.and_pow_two_sub_one_of_lt_two_pow (Nat.mod_lt _ (Nat.pos_pow_of_pos j (by norm_num)))).symm]
    rw [masked_stride_step hj ((h1 + h2) % 2 ^ j) h2, Nat.mod_add_mod,
      and_mask_eq_mod, Nat.mod_mod_of_dvd _ (pow_dvd_U32 hj), Nat.add_mod h1,
      Nat.mod_mod_of_dvd _ (pow_dvd_U32 hj), ← Nat.add_mod, two_mul, ← Nat.add_assoc]

/-- Witness for C6 at a concrete filter (64 bits, all clear) and key. -/
theorem bloom_add_query_true_witness :
    bloom_filter_query (bloom_filter_add ⟨64, fun _ => 0⟩ 1751477356) 1751477356 = true :=
  bloom_add_query_true ⟨64, fun _ => 0⟩ 1751477356 6 (by norm_num) rfl

/-! ## Normalization transform (transform_table.c) -/

/-- `IS_PUNCT` table from common.h (POSIX `[:punct:]` as listed there). -/
def isPunct (c : Nat) : Bool :=
  decide (c ∈ [33, 34, 35, 36, 37, 38, 39, 40, 41, 42, 43, 44, 45, 46, 47,
    58, 59, 60, 61, 62, 63, 64, 91, 92, 93, 94, 96, 123, 124, 125, 126])

/-- `IS_SPACE` table from common.h: `\t \n \v \f \r ' ' \a \b`. -/
def isSpace (c : Nat) : Bool :=
  decide (c ∈ [9, 10, 11, 12, 13, 32, 7, 8])

/-- ASCII `toupper` as used via `TOUPPER` in transform_table.c. -/
def toUpperByte (c : Nat) : Nat :=
  if 97 ≤ c ∧ c ≤ 122 then c - 32 else c

/-- `transform_table_t`: the 256-entry `int16_t` table (scratch buffer and
capacity are allocation details with no observable effect and are omitted).
Entry `-1` is `TRANSFORM_SKIP`, `-2` is `TRANSFORM_ELIDE_SPACE`. -/
structure TransformTable where
  table : Nat → Int

/-- `transform_init`: elide-whitespace takes precedence over skip-punctuation,
which takes precedence over case folding. -/
def transform_init (ci ip ew : Bool) : TransformTable :=
  ⟨fun i =>
    if ew ∧ isSpace i then -2
    else if ip ∧ isPunct i then -1
    else if ci then (toUpperByte i : Int)
    else (i : Int)⟩

/-- Main loop of `transform_apply`: walks the source with the source index `i`
and the `in_space` run flag, producing the output bytes and the back-map of
source indices (`backmap[j] = i`). -/
def ta_go (tt : TransformTable) : List Nat → Nat → Bool → List Nat × List Nat
  | [], _, _ => ([], [])
  | c :: rest, i, in_space =>
    let m := tt.table c
    if m = -1 then ta_go tt rest (i + 1) in_space
    else if m = -2 then
      if in_space then ta_go tt rest (i + 1) true
      else
        let r := ta_go tt rest (i + 1) true
        (32 :: r.1, i :: r.2)
    else
      let r := ta_go tt rest (i + 1) false
      (m.toNat :: r.1, i :: r.2)

/-- `transform_apply` from transform_table.c: runs the table over `src`, then
trims one trailing emitted space.  Returns (normalized bytes, back-map). -/
def transform_apply (tt : TransformTable) (src : List Nat) : List Nat × List Nat :=
  let r := ta_go tt src 0 false
  if r.1 ≠ [] ∧ r.1.getLast? = some 32 then (r.1.dropLast, r.2.take (r.1.length - 1))
  else r

lemma ta_go_length_le (tt : TransformTable) :
    ∀ (src : List Nat) (i : Nat) (sp : Bool), (ta_go tt src i sp).1.length ≤ src.length := by
  intro src
  induction src with
  | nil => intro i sp; simp [ta_go]
  | cons c rest ih =>
    intro i sp
    rw [ta_go]
    dsimp only
    split
    · exact Nat.le_trans (ih (i + 1) sp) (Nat.le_succ _)
    · split
      · split
        · exact Nat.le_trans (ih (i + 1) true) (Nat.le_succ _)
        · simpa using ih (i + 1) true
      · simpa using ih (i + 1) false

/-- C10: for every transform table and every input buffer, the normalized
output of `transform_apply` is at most as long as the input — each input byte
emits at most one output byte (and the trailing-space trim can only shorten
it).  This is the bound that makes the match wrapper's window buffer and
back-map allocations of `chunk_size + largest_pattern_length` bytes
sufficient. -/
theorem transform_apply_length_le (tt : TransformTable) (src : List Nat) :
    (transform_apply tt src).1.length ≤ src.length := by
  rw [transform_apply]
  split
  · simp only [List.length_dropLast]
    exact Nat.le_trans (Nat.sub_le _ _) (ta_go_length_le tt src 0 false)
  · exact ta_go_length_le tt src 0 false

/-! ## Power-of-two rounding and Bloom sizing (util.h, bloom.c, compiler.c) -/

/-- `HEADER_MAGIC "0MGM4tCH"` as bytes. -/
def HEADER_MAGIC_BYTES : List Nat := [48, 77, 71, 77, 52, 116, 67, 72]

/-- `BLOOM_HEADER "0MG8L0oM"` as bytes. -/
def BLOOM_MAGIC_BYTES : List Nat := [48, 77, 71, 56, 76, 48, 111, 77]

/-- `HASH_HEADER "0MG*H4sH"` as bytes. -/
def HASH_MAGIC_BYTES : List Nat := [48, 77, 71, 42, 72, 52, 115, 72]

/-- `SHORT_MATCHER_MAGIC "0MG5HOrT"` as bytes. -/
def SHORT_MAGIC_BYTES : List Nat := [48, 77, 71, 53, 72, 79, 114, 84]

/-- Header field `pattern_store_size` (offset 16, u64). -/
def load_psize (f : List Nat) : Nat := readU64 f 16

/-- Header field `bloom_filter_size` (offset 36, u32). -/
def load_bloom_size (f : List Nat) : Nat := readU32 f 36

/-- Header field `hash_buckets_size` (offset 40, u32). -/
def load_hbs (f : List Nat) : Nat := readU32 f 40

/-- Header field `table_size` (offset 44, u32). -/
def load_tsize (f : List Nat) : Nat := readU32 f 44

/-- Header field `short_matcher_size` (offset 60, u32). -/
def load_sms (f : List Nat) : Nat := readU32 f 60

/-- Offset of the Bloom section (after the 72-byte header and pattern store). -/
def load_bloom_off (f : List Nat) : Nat := 72 + load_psize f

/-- Offset of the hash section (after Bloom magic, bit size and bit data). -/
def load_hash_off (f : List Nat) : Nat := load_bloom_off f + 8 + 4 + load_bloom_size f

/-- Offset of the index array. -/
def load_index_off (f : List Nat) : Nat := load_hash_off f + 8

/-- Offset of the bucket-data region. -/
def load_bucket_off (f : List Nat) : Nat := load_index_off f + load_tsize f * 4

/-- Offset just past the bucket data (start of the short matcher if present). -/
def load_end_off (f : List Nat) : Nat := load_bucket_off f + load_hbs f

/-- The section pointers a successful load produces. -/
structure LoadedView where
  bloomBitSize : Nat
  indexOff : Nat
  bucketOff : Nat
  smLen3 : Nat
  smLen4 : Nat

/-- `oa_matcher_load`: walks the layout over the mapped bytes, rejecting on a
magic mismatch, on the short-matcher bounds check, or when the declared
sections do not end exactly at the file size.  The format `version` field is
never examined. -/
def oa_matcher_load (f : List Nat) : Option LoadedView :=
  if readBytes f 0 8 ≠ HEADER_MAGIC_BYTES then none
  else if readBytes f (load_bloom_off f) 8 ≠ BLOOM_MAGIC_BYTES then none
  else if readBytes f (load_hash_off f) 8 ≠ HASH_MAGIC_BYTES then none
  else if 0 < load_sms f then
    if readBytes f (load_end_off f) 8 ≠ SHORT_MAGIC_BYTES then none
    else if f.length < load_end_off f + 8 + 32 + 8192 + 8 then none
    else if load_sms f + load_end_off f ≠ f.length then none
    else some ⟨readU32 f (load_bloom_off f + 8), load_index_off f, load_bucket_off f,
      readU32 f (load_end_off f + 8 + 32 + 8192 + 8),
      readU32 f (load_end_off f + 8 + 32 + 8192 + 12)⟩
  else if load_sms f + load_end_off f ≠ f.length then none
  else some ⟨readU32 f (load_bloom_off f + 8), load_index_off f, load_bucket_off f, 0, 0⟩

/-- A 104-byte compiled store: valid magics, empty pattern store, 64-bit
Bloom, one empty index slot, no short matcher — but header `version = 42`. -/
def c7File : List Nat :=
  [48, 77, 71, 77, 52, 116, 67, 72,
   42, 0, 0, 0,
   0, 0, 0, 0,
   0, 0, 0, 0, 0, 0, 0, 0,
   0, 0, 0, 0,
   0, 0, 0, 0,
   0, 0, 0, 0,
   8, 0, 0, 0,
   0, 0, 0, 0,
   1, 0, 0, 0,
   0, 0, 0, 0,
   0, 0, 0, 0,
   0, 0, 0, 0,
   0, 0, 0, 0,
   0, 0, 0, 0,
   0, 0, 0, 0,
   48, 77, 71, 56, 76, 48, 111, 77,
   64, 0, 0, 0,
   0, 0, 0, 0, 0, 0, 0, 0,
   48, 77, 71, 42, 72, 52, 115, 72,
   255, 255, 255, 255]

/-- Counterexample for C7: the loader accepts a file whose format version is
42, not the current version 1 — the version field is never validated. -/
theorem loader_ignores_version :
    (oa_matcher_load c7File).isSome = true ∧ readU32 c7File 8 = 42 ∧ (42 : Nat) ≠ 1 := by
  decide

/-- C7 (amended): load succeeds if and only if the global, Bloom, hash and
(when a short matcher is declared) short-matcher magics match, the
short-matcher bounds check passes, and the file ends exactly at
`header + all sections`.  The format version is NOT validated. -/
theorem loader_accepts_iff (f : List Nat) :
    (oa_matcher_load f).isSome = true ↔
      (readBytes f 0 8 = HEADER_MAGIC_BYTES ∧
        readBytes f (load_bloom_off f) 8 = BLOOM_MAGIC_BYTES ∧
        readBytes f (load_hash_off f) 8 = HASH_MAGIC_BYTES ∧
        (0 < load_sms f → readBytes f (load_end_off f) 8 = SHORT_MAGIC_BYTES ∧
          load_end_off f + 8 + 32 + 8192 + 8 ≤ f.length) ∧
        load_sms f + load_end_off f = f.length) := by
  rw [oa_matcher_load]
  split
  · simp_all
  · split
    · simp_all
    · split
      · simp_all
      · split
        · split
          · simp_all
          · split
            · simp_all
            · split
              · simp_all
              · simp_all
        · split
          · simp_all
          · simp_all

/-! ## Compiler close: per-bucket sorting (compiler.c lines 39-45, 241-321) -/

/-- `pattern_t` (common.h): offset into the pattern store and length.  The
reserved alignment field carries no information and is omitted. -/
structure pattern_t where
  offset : Nat
  len : Nat
deriving DecidableEq, Repr

/-- `compare_patterns` from compiler.c: `(p2->len > p1->len) - (p2->len < p1->len)`,
i.e. descending order by length. -/
def compare_patterns (a b : pattern_t) : Int :=
  (if b.len > a.len then 1 else 0) - (if b.len < a.len then 1 else 0)

/-- The libc `qsort` call with `compare_patterns` is external to the
repository; it is modelled by its contract as a comparison sort placing `a`
before `b` when `compare_patterns a b ≤ 0`. -/
def qsort_compare_patterns (l : List pattern_t) : List pattern_t :=
  l.mergeSort (fun a b => decide (compare_patterns a b ≤ 0))

/-- `hash_entry_t` (common.h): gram key, pattern count and the pattern list
(the probe distance and capacity are bookkeeping with no effect here). -/
structure hash_entry_t where
  key : Nat
  count : Nat
  patterns : List pattern_t
deriving DecidableEq

/-- The per-bucket sorting pass of `omega_list_matcher_compiler_destroy`
(lines 262-275): every occupied bucket's pattern list is qsorted with
`compare_patterns`. -/
def compiler_close_sort_buckets (entries : List hash_entry_t) : List hash_entry_t :=
  entries.map fun e =>
    if 0 < e.count then { e with patterns := qsort_compare_patterns e.patterns } else e

/-- The bucket records written to the bucket-data region (lines 309-321):
one record per occupied bucket, in slot order, carrying key, count and the
pattern array in its in-memory order. -/
def serialize_bucket_records (entries : List hash_entry_t) : List hash_entry_t :=
  entries.filter fun e => 0 < e.count

lemma compare_patterns_nonpos_iff (a b : pattern_t) :
    compare_patterns a b ≤ 0 ↔ b.len ≤ a.len := by
  rw [compare_patterns]
  split <;> split <;> omega

/-- C9: after the compiler's close, every occupied bucket's pattern list in
the serialized bucket-data region is sorted by descending pattern length. -/
theorem close_buckets_sorted_desc (entries : List hash_entry_t) (e : hash_entry_t)
    (he : e ∈ serialize_bucket_records (compiler_close_sort_buckets entries)) :
    e.patterns.Pairwise (fun a b => b.len ≤ a.len) := by
  rw [serialize_bucket_records, List.mem_filter] at he
  obtain ⟨hmem, hcnt⟩ := he
  rw [compiler_close_sort_buckets, List.mem_map] at hmem
  obtain ⟨e0, _, rfl⟩ := hmem
  by_cases h0 : 0 < e0.count
  · rw [if_pos h0]
    have hs : (qsort_compare_patterns e0.patterns).Pairwise
        (fun a b => decide (compare_patterns a b ≤ 0) = true) := by
      apply List.sorted_mergeSort
      · intro a b c hab hbc
        simp only [decide_eq_true_eq, compare_patterns_nonpos_iff] at *
        omega
      · intro a b
        simp only [Bool.or_eq_true, decide_eq_true_eq, compare_patterns_nonpos_iff]
        omega
    exact hs.imp (by simp only [decide_eq_true_eq, compare_patterns_nonpos_iff]; exact fun h => h)
  · rw [if_neg h0] at hcnt
    simp only [decide_eq_true_eq] at hcnt
    exact absurd hcnt h0

/-- Witness for C9 at a one-bucket table whose list is already descending. -/
theorem close_buckets_sorted_desc_witness :
    (⟨100, 2, [⟨5, 7⟩, ⟨0, 5⟩]⟩ : hash_entry_t) ∈
        serialize_bucket_records (compiler_close_sort_buckets [⟨100, 2, [⟨5, 7⟩, ⟨0, 5⟩]⟩]) ∧
      ([⟨5, 7⟩, ⟨0, 5⟩] : List pattern_t).Pairwise (fun a b => b.len ≤ a.len) := by
  have hq : qsort_compare_patterns [⟨5, 7⟩, ⟨0, 5⟩] = [⟨5, 7⟩, ⟨0, 5⟩] :=
    List.mergeSort_of_sorted (by decide)
  have hm : (⟨100, 2, [⟨5, 7⟩, ⟨0, 5⟩]⟩ : hash_entry_t) ∈
      serialize_bucket_records (compiler_close_sort_buckets [⟨100, 2, [⟨5, 7⟩, ⟨0, 5⟩]⟩]) := by
    rw [compiler_close_sort_buckets, serialize_bucket_records]
    simp [hq]
  exact ⟨hm, close_buckets_sorted_desc _ _ hm⟩

/-! ## Scan engine (matcher.c: short matcher, probe, bucket scan, core_match)

Haystack reads are `hay.getD i junk`: when the C code reads past the end of
the buffer the model returns the unknown adjacent byte `junk`, so a result
that depends on `junk` is a result that depends on out-of-bounds memory. -/

/-- `omega_match_result_t`: offset and length (the `match` pointer is the
haystack offset and carries no extra information). -/
structure MatchResult where
  offset : Nat
  len : Nat
deriving DecidableEq, Repr

/-- The `while (lo < hi)` loop of `binary_search_uint32_optimized`. -/
def bs_loop (arr : List Nat) (key lo hi : Nat) : Bool :=
  if _h : lo < hi then
    let mid := lo + (hi - lo) / 2
    let val := arr.getD mid 0
    if key < val then bs_loop arr key lo mid
    else if val < key then bs_loop arr key (mid + 1) hi
    else true
  else false
termination_by hi - lo
decreasing_by
  · have h2 : (hi - lo) / 2 < hi - lo := Nat.div_lt_self (by omega) (by omega)
    omega
  · omega

/-- `binary_search_uint32_optimized` from matcher.c, with the small-count
specializations (the C `|` over 0/1 ints is boolean or). -/
def binary_search_uint32_optimized (arr : List Nat) (count key : Nat) : Bool :=
  if count = 0 then false
  else if count = 1 then arr.getD 0 0 == key
  else if count ≤ 4 then
    if count = 2 then (arr.getD 0 0 == key) || (arr.getD 1 0 == key)
    else if count = 3 then
      (arr.getD 0 0 == key) || (arr.getD 1 0 == key) || (arr.getD 2 0 == key)
    else
      (arr.getD 0 0 == key) || (arr.getD 1 0 == key) || (arr.getD 2 0 == key) ||
        (arr.getD 3 0 == key)
  else bs_loop arr key 0 count

/-- `short_matcher_t` (common.h): bitmaps as byte-indexed functions, counts,
and the sorted key arrays for lengths 3 and 4. -/
structure short_matcher_t where
  bitmap1 : Nat → Nat
  bitmap2 : Nat → Nat
  len1 : Nat
  len2 : Nat
  len3 : Nat
  len4 : Nat
  arr3 : List Nat
  arr4 : List Nat

/-- `short_matcher_query1_fast`: `bitmap1[b >> 3] & (1 << (b & 7))`. -/
def short_matcher_query1_fast (sm : short_matcher_t) (b : Nat) : Bool :=
  (sm.bitmap1 (b >>> 3)) &&& (1 <<< (b &&& 7)) != 0

/-- `short_matcher_query2_fast`: 16-bit key `(p0 << 8) | p1` into `bitmap2`. -/
def short_matcher_query2_fast (sm : short_matcher_t) (b0 b1 : Nat) : Bool :=
  let v := (b0 <<< 8) ||| b1
  (sm.bitmap2 (v >>> 3)) &&& (1 <<< (v &&& 7)) != 0

/-- `short_matcher_query3_fast`: 24-bit key binary-searched in `arr3`. -/
def short_matcher_query3_fast (sm : short_matcher_t) (b0 b1 b2 : Nat) : Bool :=
  if sm.len3 = 0 then false
  else binary_search_uint32_optimized sm.arr3 sm.len3 ((b0 <<< 16) ||| (b1 <<< 8) ||| b2)

/-- `short_matcher_query4_fast`: 32-bit key binary-searched in `arr4`. -/
def short_matcher_query4_fast (sm : short_matcher_t) (b0 b1 b2 b3 : Nat) : Bool :=
  if sm.len4 = 0 then false
  else binary_search_uint32_optimized sm.arr4 sm.len4
    ((b0 <<< 24) ||| (b1 <<< 16) ||| (b2 <<< 8) ||| b3)

/-- The loaded matcher state used by the scan (`omega_list_matcher_struct`):
pattern store bytes, Bloom filter, index array values, bucket-data bytes,
header sizes, short matcher, and the transform configuration. -/
structure Matcher where
  pattern_store : List Nat
  bf : BloomFilter
  index_array : List Nat
  bucket_data : List Nat
  table_size : Nat
  smallest : Nat
  largest : Nat
  sm : short_matcher_t
  transform_table : Option TransformTable
  flag_punct : Bool
  flag_elide : Bool

/-- `EMPTY_SLOT` (hash_table.c): `0xFFFFFFFF`. -/
def EMPTY_SLOT : Nat := 4294967295

/-- Loop body of `probe_bucket` (hash_table.c lines 91-109); the fuel is the
remaining probe budget `table_size - probe`. -/
def probe_bucket_go (idx_arr bucket_data : List Nat) (mask cand : Nat) :
    Nat → Nat → Option Nat
  | 0, _ => none
  | fuel + 1, idx =>
    let slot := idx_arr.getD idx 0
    if slot == EMPTY_SLOT then none
    else if readU32 bucket_data slot == cand then some slot
    else probe_bucket_go idx_arr bucket_data mask cand fuel ((idx + 1) &&& mask)

/-- `probe_bucket`: linear probe from `hash_uint32(cand) & mask`, at most
`table_mask + 1` slots. -/
def probe_bucket (idx_arr bucket_data : List Nat) (mask cand : Nat) : Option Nat :=
  probe_bucket_go idx_arr bucket_data mask cand (mask + 1) (hash_uint32 cand &&& mask)

/-- The `memcmp(hay_pos + 1, pattern_data + 1, len - 2) == 0` middle compare. -/
def memeq (ps : List Nat) (po : Nat) (hay : List Nat) (junk hp n : Nat) : Bool :=
  (List.range n).all fun i => hay.getD (hp + i) junk == ps.getD (po + i) 0

/-- The staged byte comparison of `scan_bucket_and_append`: single-byte fast
path, else first/last bytes then the middle `memcmp` when `len > 2`. -/
def bytesMatch (ps : List Nat) (off : Nat) (hay : List Nat) (junk pos len : Nat) : Bool :=
  if len == 1 then hay.getD pos junk == ps.getD off 0
  else
    (hay.getD pos junk == ps.getD off 0) &&
      (hay.getD (pos + len - 1) junk == ps.getD (off + len - 1) 0) &&
      (decide (len ≤ 2) || memeq ps (off + 1) hay junk (pos + 1) (len - 2))

/-- Bucket record field: pattern count at `bucket_ptr + 4`. -/
def bucket_count (bd : List Nat) (bp : Nat) : Nat := readU32 bd (bp + 4)

/-- Bucket record field: `pattern_t.offset` of entry `j`. -/
def rec_off (bd : List Nat) (bp j : Nat) : Nat := readU64 bd (bp + 8 + j * 16)

/-- Bucket record field: `pattern_t.len` of entry `j`. -/
def rec_len (bd : List Nat) (bp j : Nat) : Nat := readU32 bd (bp + 8 + j * 16 + 8)

/-- `scan_bucket_and_append` (matcher.c lines 182-255): walk the bucket's
records in order; for each, check fit, compare bytes, then apply the filter
predicates; on success emit `(pos, len)`. -/
def scan_bucket_and_append (bd ps hay : List Nat) (junk bp pos : Nat)
    (wb wp ws ls le : Bool) : List MatchResult :=
  let wpOk := !wp || (decide (pos = 0) || !isWord (hay.getD (pos - 1) junk))
  let lsOk := !ls || is_at_line_start hay junk pos
  (List.range (bucket_count bd bp)).filterMap fun j =>
    if hay.length - pos < rec_len bd bp j then none
    else if !(bytesMatch ps (rec_off bd bp j) hay junk pos (rec_len bd bp j)) then none
    else if wb && decide (pos + rec_len bd bp j < hay.length) &&
        isWord (hay.getD (pos + rec_len bd bp j) junk) then none
    else if !wpOk then none
    else if ws && decide (pos + rec_len bd bp j < hay.length) &&
        isWord (hay.getD (pos + rec_len bd bp j) junk) then none
    else if !lsOk then none
    else if le && !(is_at_line_end hay junk hay.length pos (rec_len bd bp j)) then none
    else some ⟨pos, rec_len bd bp j⟩

/-- The long path of `core_match` at one position (lines 782-801): gate on
`largest ≥ 5 && remaining ≥ 4`, gram, Bloom query, bucket probe, bucket scan. -/
def long_path (m : Matcher) (hay : List Nat) (junk pos : Nat)
    (wb wp ws ls le : Bool) : List MatchResult :=
  if 5 ≤ m.largest ∧ 4 ≤ hay.length - pos then
    if bloom_filter_query m.bf (pack_gram (hay.getD pos junk) (hay.getD (pos + 1) junk)
        (hay.getD (pos + 2) junk) (hay.getD (pos + 3) junk)) then
      match probe_bucket m.index_array m.bucket_data (m.table_size - 1)
          (pack_gram (hay.getD pos junk) (hay.getD (pos + 1) junk)
            (hay.getD (pos + 2) junk) (hay.getD (pos + 3) junk)) with
      | none => []
      | some so => scan_bucket_and_append m.bucket_data m.pattern_store hay junk so pos
          wb wp ws ls le
    else []
  else []

/-- The short-path length-4 block (lines 810-825).  Note: the
`word_boundary` check reads `haystack[pos + 4]` WITHOUT a bounds check
(unlike the adjacent `word_suffix` check), which the `junk` read models. -/
def short_path4 (m : Matcher) (hay : List Nat) (junk pos : Nat)
    (wb wp ws ls le : Bool) : List MatchResult :=
  let hsize := hay.length
  let wpOk := !wp || (decide (pos = 0) || !isWord (hay.getD (pos - 1) junk))
  let lsOk := !ls || is_at_line_start hay junk pos
  if 0 < m.sm.len4 ∧ 4 ≤ hsize - pos then
    if short_matcher_query4_fast m.sm (hay.getD pos junk) (hay.getD (pos + 1) junk)
        (hay.getD (pos + 2) junk) (hay.getD (pos + 3) junk) then
      if (!wb || !isWord (hay.getD (pos + 4) junk)) && wpOk &&
          (!ws || (decide (hsize ≤ pos + 4) || !isWord (hay.getD (pos + 4) junk))) &&
          lsOk && (!le || is_at_line_end hay junk hsize pos 4) then [⟨pos, 4⟩]
      else []
    else []
  else []

/-- The short-path length-3 block (lines 828-843); same unbounded
`word_boundary` read at `pos + 3`. -/
def short_path3 (m : Matcher) (hay : List Nat) (junk pos : Nat)
    (wb wp ws ls le : Bool) : List MatchResult :=
  let hsize := hay.length
  let wpOk := !wp || (decide (pos = 0) || !isWord (hay.getD (pos - 1) junk))
  let lsOk := !ls || is_at_line_start hay junk pos
  if 0 < m.sm.len3 ∧ 3 ≤ hsize - pos then
    if short_matcher_query3_fast m.sm (hay.getD pos junk) (hay.getD (pos + 1) junk)
        (hay.getD (pos + 2) junk) then
      if (!wb || !isWord (hay.getD (pos + 3) junk)) && wpOk &&
          (!ws || (decide (hsize ≤ pos + 3) || !isWord (hay.getD (pos + 3) junk))) &&
          lsOk && (!le || is_at_line_end hay junk hsize pos 3) then [⟨pos, 3⟩]
      else []
    else []
  else []

/-- The short-path length-2 block (lines 846-859): no line-anchor checks,
and the same unbounded `word_boundary` read at `pos + 2`. -/
def short_path2 (m : Matcher) (hay : List Nat) (junk pos : Nat)
    (wb wp ws : Bool) : List MatchResult :=
  let hsize := hay.length
  let wpOk := !wp || (decide (pos = 0) || !isWord (hay.getD (pos - 1) junk))
  if 0 < m.sm.len2 ∧ 2 ≤ hsize - pos then
    if short_matcher_query2_fast m.sm (hay.getD pos junk) (hay.getD (pos + 1) junk) then
      if (!wb || !isWord (hay.getD (pos + 2) junk)) && wpOk &&
          (!ws || (decide (hsize ≤ pos + 2) || !isWord (hay.getD (pos + 2) junk))) then
        [⟨pos, 2⟩]
      else []
    else []
  else []

/-- The short-path length-1 block (lines 862-875): no line-anchor checks;
here the `word_boundary` check does carry a bounds check. -/
def short_path1 (m : Matcher) (hay : List Nat) (junk pos : Nat)
    (wb wp ws : Bool) : List MatchResult :=
  let hsize := hay.length
  let wpOk := !wp || (decide (pos = 0) || !isWord (hay.getD (pos - 1) junk))
  if 0 < m.sm.len1 then
    if short_matcher_query1_fast m.sm (hay.getD pos junk) then
      if (!wb || (decide (hsize ≤ pos + 1) || !isWord (hay.getD (pos + 1) junk))) && wpOk &&
          (!ws || (decide (hsize ≤ pos + 1) || !isWord (hay.getD (pos + 1) junk))) then
        [⟨pos, 1⟩]
      else []
    else []
  else []

/-- The short path of `core_match` at one position (lines 804-876): gated on
`smallest ≤ 4`, lengths 4, 3, 2, 1 in that order. -/
def short_path (m : Matcher) (hay : List Nat) (junk pos : Nat)
    (wb wp ws ls le : Bool) : List MatchResult :=
  if m.smallest ≤ 4 then
    short_path4 m hay junk pos wb wp ws ls le ++ short_path3 m hay junk pos wb wp ws ls le ++
      short_path2 m hay junk pos wb wp ws ++ short_path1 m hay junk pos wb wp ws
  else []

/-- One iteration of the `core_match` position loop (lines 767-877): the
word-boundary transition gate, then the long path and the short path. -/
def position_matches (m : Matcher) (hay : List Nat) (junk pos : Nat)
    (wb wp ws ls le : Bool) : List MatchResult :=
  if wb && (isWord (hay.getD pos junk) ==
      (decide (0 < pos) && isWord (hay.getD (pos - 1) junk))) then []
  else
    long_path m hay junk pos wb wp ws ls le ++ short_path m hay junk pos wb wp ws ls le

/-- `filter_longest`: keep when the offset differs from the last kept result. -/
def filter_longest (prev curr : MatchResult) : Bool := curr.offset != prev.offset

/-- `filter_no_overlap`: keep when `curr.offset >= prev.offset + prev.len`. -/
def filter_no_overlap (prev curr : MatchResult) : Bool :=
  decide (prev.offset + prev.len ≤ curr.offset)

/-- The in-place compaction loop of `apply_filter`, carrying the last kept
result (`write == 0` means none kept yet, and the first element always
passes). -/
def apply_filter_go (f : MatchResult → MatchResult → Bool) :
    Option MatchResult → List MatchResult → List MatchResult
  | _, [] => []
  | none, r :: rest => r :: apply_filter_go f (some r) rest
  | some p, r :: rest =>
    if f p r then r :: apply_filter_go f (some r) rest
    else apply_filter_go f (some p) rest

/-- `apply_filter` from matcher.c lines 552-561. -/
def apply_filter (f : MatchResult → MatchResult → Bool) (v : List MatchResult) :
    List MatchResult :=
  apply_filter_go f none v

/-- The byte key of radix pass `p` (`radix_sort_matches`): passes 0-3 take
bytes of `~len` (`uint32` complement, i.e. xor with `0xFFFFFFFF`), passes
4-11 take bytes of `offset`. -/
def radix_key (p : Nat) (r : MatchResult) : Nat :=
  if p < 4 then ((r.len ^^^ 4294967295) >>> (p * 8)) &&& 255
  else (r.offset >>> ((p - 4) * 8)) &&& 255

/-- One stable counting-sort pass: elements grouped by byte key in ascending
key order, source order preserved inside each group (exactly the scatter of
the exclusive-prefix-sum counting sort). -/
def radix_pass (p : Nat) (l : List MatchResult) : List MatchResult :=
  (List.range 256).flatMap fun b => l.filter fun r => radix_key p r == b

/-- `radix_sort_matches`: `PASSES = sizeof(size_t) + sizeof(uint32_t) = 12`
LSD passes; with an even pass count the result lands back in the input
buffer. -/
def radix_sort_matches (l : List MatchResult) : List MatchResult :=
  (List.range 12).foldl (fun acc p => radix_pass p acc) l

/-- `finalize_match_results` (lines 587-623): concatenate the per-thread
vectors, radix sort, then `longest_only` before `no_overlap`. -/
def finalize_match_results (vecs : List (List MatchResult)) (no_ov lo : Bool) :
    List MatchResult :=
  let s := radix_sort_matches vecs.flatten
  let s1 := if lo then apply_filter filter_longest s else s
  if no_ov then apply_filter filter_no_overlap s1 else s1

/-- All raw matches in position order: the single sequential worker of the
non-OpenMP build visits every position of the haystack in order. -/
def all_matches (m : Matcher) (hay : List Nat) (junk : Nat)
    (wb wp ws ls le : Bool) : List MatchResult :=
  (List.range hay.length).flatMap fun pos => position_matches m hay junk pos wb wp ws ls le

/-- `core_match` (lines 697-891): scan every position, then finalize. -/
def core_match (m : Matcher) (hay : List Nat) (junk : Nat)
    (no_ov lo wb wp ws ls le : Bool) : List MatchResult :=
  finalize_match_results [all_matches m hay junk wb wp ws ls le] no_ov lo

/-! ## Concrete matchers for boundary and ordering facts -/

/-- Short matcher for the one-pattern dictionary `{"ab"}`: bit `0x6162` of
`bitmap2` set (byte index `0x6162 >> 3 = 3116`, bit `2`). -/
def c4sm : short_matcher_t :=
  ⟨fun _ => 0, fun i => if i = 3116 then 4 else 0, 0, 1, 0, 0, [], []⟩

/-- Matcher compiled from `{"ab"}`: smallest = largest = 2, no long path. -/
def c4Matcher : Matcher :=
  ⟨[], ⟨64, fun _ => 0⟩, [EMPTY_SLOT], [], 1, 2, 2, c4sm, none, false, false⟩

/-- C4: with `word_boundary` set, the short-matcher path evaluates
`IS_WORD(haystack[pos + len])` for a length-2 match ending exactly at
`haystack.len()` WITHOUT a bounds check: on haystack `"ab"` the outcome
depends on the unknown byte one past the buffer (`junk`) — the match is
rejected when that byte happens to be a word character (`'x'`) and accepted
when it is not (`' '`).  The claim's contract (accept at the edge, never read
at or past `haystack.len()`) is violated. -/
theorem short_word_boundary_reads_past_end :
    core_match c4Matcher [97, 98] 120 false false true false false false false = [] ∧
      core_match c4Matcher [97, 98] 32 false false true false false false false =
        [⟨0, 2⟩] := by decide

/-- Short matcher for the dictionary `{"ab", "bcd"}` (`"bcd"` has 24-bit key
`98*65536 + 99*256 + 100 = 6447972`). -/
def c2sm : short_matcher_t :=
  ⟨fun _ => 0, fun i => if i = 3116 then 4 else 0, 0, 1, 1, 0, [6447972], []⟩

/-- Matcher compiled from `{"ab", "bcd"}`: smallest 2, largest 3. -/
def c2Matcher : Matcher :=
  ⟨[], ⟨64, fun _ => 0⟩, [EMPTY_SLOT], [], 1, 2, 3, c2sm, none, false, false⟩

/-- Counterexample for C2: on haystack `"abcd"` the match operation returns
`[(0,2), (1,3)]` — the length-3 result comes AFTER the length-2 result, so
the final order is not primary-key length descending; the radix sort's last
eight passes make the offset the primary (ascending) key. -/
theorem radix_order_not_length_primary :
    core_match c2Matcher [97, 98, 99, 100] 0 false false false false false false false =
        [⟨0, 2⟩, ⟨1, 3⟩] ∧
      ¬ (core_match c2Matcher [97, 98, 99, 100] 0 false false false false false
          false false).Pairwise
        (fun a b => b.len < a.len ∨ (a.len = b.len ∧ a.offset ≤ b.offset)) := by
  decide

/-! ## Radix sort correctness -/

/-- The composite sort key realised by the 12 LSD passes: the low 32 bits are
`~len`, the high bits are `offset` — later passes are more significant, so
`offset` is the primary key. -/
def NKey (r : MatchResult) : Nat := (r.len ^^^ 4294967295) + 4294967296 * r.offset

/-- The final order of the match pipeline: offset ascending, and length
descending among equal offsets. -/
def offLex (a b : MatchResult) : Prop :=
  a.offset < b.offset ∨ (a.offset = b.offset ∧ b.len ≤ a.len)

lemma radix_key_lt (p : Nat) (r : MatchResult) : radix_key p r < 256 := by
  rw [radix_key]
  split <;> exact Nat.lt_succ_of_le Nat.and_le_right

lemma pairwise_true {α : Type} (R : α → α → Prop) (hR : ∀ a b, R a b) (l : List α) :
    l.Pairwise R := by
  induction l with
  | nil => exact List.Pairwise.nil
  | cons x t ih => exact List.Pairwise.cons (fun y _ => hR x y) ih

lemma sum_map_ite (n k c : Nat) :
    ((List.range n).map fun b => if k == b then c else 0).sum =
      if k < n then c else 0 := by
  induction n with
  | zero => simp
  | succ n ih =>
    rw [List.range_succ, List.map_append, List.sum_append, ih]
    by_cases h : k = n
    · subst h
      simp [Nat.lt_irrefl]
    · by_cases h2 : k < n
      · have : k < n + 1 := by omega
        simp [h, h2, this]
      · have : ¬ k < n + 1 := by omega
        simp [h, h2, this]

lemma count_radix_pass (p : Nat) (l : List MatchResult) (x : MatchResult) :
    (radix_pass p l).count x = l.count x := by
  rw [radix_pass, List.flatMap, List.count_flatten, List.map_map]
  have hmap : ∀ b : Nat,
      (l.filter fun r => radix_key p r == b).count x =
        if radix_key p x == b then l.count x else 0 := by
    intro b
    by_cases hkey : radix_key p x == b
    · rw [if_pos hkey]
      exact List.count_filter hkey
    · rw [if_neg hkey]
      rw [List.count_eq_zero]
      intro hmem
      exact hkey (List.mem_filter.mp hmem).2
  calc ((List.range 256).map ((List.count x) ∘ fun b =>
          l.filter fun r => radix_key p r == b)).sum
      = ((List.range 256).map fun b => if radix_key p x == b then l.count x else 0).sum := by
        congr 1
        apply List.map_congr_left
        intro b _
        exact hmap b
    _ = l.count x := by
        rw [sum_map_ite]
        exact if_pos (radix_key_lt p x)

lemma radix_pass_perm (p : Nat) (l : List MatchResult) : List.Perm (radix_pass p l) l :=
  List.perm_iff_count.mpr fun x => count_radix_pass p l x

lemma foldl_radix_perm (ps : List Nat) (l : List MatchResult) :
    List.Perm (ps.foldl (fun acc p => radix_pass p acc) l) l := by
  induction ps generalizing l with
  | nil => exact List.Perm.refl l
  | cons p rest ih =>
    rw [List.foldl_cons]
    exact (ih (radix_pass p l)).trans (radix_pass_perm p l)

/-- The radix sort is a permutation of its input. -/
lemma radix_sort_matches_perm (l : List MatchResult) : List.Perm (radix_sort_matches l) l :=
  foldl_radix_perm _ l

lemma nkey_lt (r : MatchResult) (hlen : r.len < U32) (hoff : r.offset < U64) :
    NKey r < 256 ^ 12 := by
  have hx : r.len ^^^ 4294967295 < 2 ^ 32 :=
    Nat.xor_lt_two_pow (by exact_mod_cast hlen) (by norm_num)
  have : (256 : Nat) ^ 12 = 2 ^ 96 := by norm_num
  rw [NKey, this]
  have : (4294967296 : Nat) = 2 ^ 32 := by norm_num
  rw [this]
  have hoff' : r.offset < 2 ^ 64 := by exact_mod_cast hoff
  nlinarith [pow_pos (show (0:Nat) < 2 by norm_num) 32]

/-- The byte extracted in pass `p` is digit `p` of the composite key. -/
lemma radix_key_eq_digit (p : Nat) (r : MatchResult) (hp : p < 12)
    (hlen : r.len < U32) (hoff : r.offset < U64) :
    radix_key p r = NKey r / 256 ^ p % 256 := by
  have hx : r.len ^^^ 4294967295 < 2 ^ 32 :=
    Nat.xor_lt_two_pow (by exact_mod_cast hlen) (by norm_num)
  have h256 : ∀ q : Nat, (256 : Nat) ^ q = 2 ^ (8 * q) := by
    intro q
    rw [show (256 : Nat) = 2 ^ 8 by norm_num, ← pow_mul]
  rw [radix_key, NKey]
  split
  · -- passes 0-3: digit of ~len
    rename_i hp4
    rw [Nat.shiftRight_eq_div_pow,
      show (255 : Nat) = 2 ^ 8 - 1 by norm_num, Nat.and_pow_two_sub_one_eq_mod,
      h256 p, show (4294967296 : Nat) = 2 ^ (8 * p) * 2 ^ (32 - 8 * p) by
        rw [← pow_add, show 8 * p + (32 - 8 * p) = 32 by omega]; norm_num]
    rw [mul_assoc, Nat.add_mul_div_left _ _ (Nat.pos_pow_of_pos _ (by norm_num))]
    rw [show (2 : Nat) ^ (32 - 8 * p) = 2 ^ 8 * 2 ^ (24 - 8 * p) by
      rw [← pow_add]; congr 1; omega]
    rw [mul_assoc, show (2:Nat) ^ 8 = 256 by norm_num, Nat.add_mul_mod_self_left,
      show (2:Nat) ^ (8 * p) = 2 ^ (p * 8) by ring_nf]
  · -- passes 4-11: digit of offset
    rename_i hp4
    rw [Nat.shiftRight_eq_div_pow,
      show (255 : Nat) = 2 ^ 8 - 1 by norm_num, Nat.and_pow_two_sub_one_eq_mod,
      h256 p, show (8 * p : Nat) = 32 + 8 * (p - 4) by omega, pow_add,
      ← Nat.div_div_eq_div_mul,
      show (4294967296 : Nat) = 2 ^ 32 by norm_num,
      Nat.add_mul_div_left _ _ (Nat.pos_pow_of_pos _ (by norm_num)),
      Nat.div_eq_of_lt hx, Nat.zero_add,
      show (2:Nat) ^ (8 * (p - 4)) = 2 ^ ((p - 4) * 8) by ring_nf]

lemma nkey_mod_split (p : Nat) (N : Nat) :
    N % 256 ^ (p + 1) = N % 256 ^ p + 256 ^ p * (N / 256 ^ p % 256) := by
  rw [pow_succ, Nat.mod_mul]

/-- One stable pass on digit `p` refines sortedness from modulus `256^p` to
modulus `256^(p+1)`. -/
lemma radix_pass_sorted_step (p : Nat) (l : List MatchResult) (hp : p < 12)
    (hb : ∀ r ∈ l, r.len < U32 ∧ r.offset < U64)
    (hs : l.Pairwise fun a b => NKey a % 256 ^ p ≤ NKey b % 256 ^ p) :
    (radix_pass p l).Pairwise
      fun a b => NKey a % 256 ^ (p + 1) ≤ NKey b % 256 ^ (p + 1) := by
  rw [radix_pass, List.pairwise_flatMap]
  constructor
  · -- inside one digit group: digits are equal, low part is sorted
    intro b _
    have hgroup := hs.filter (fun r => radix_key p r == b)
    refine hgroup.imp_of_mem ?_
    intro x y hx hy hxy
    have hxb : radix_key p x = b := by simpa using (List.mem_filter.mp hx).2
    have hyb : radix_key p y = b := by simpa using (List.mem_filter.mp hy).2
    have hxm := hb x (List.mem_of_mem_filter hx)
    have hym := hb y (List.mem_of_mem_filter hy)
    have dx := radix_key_eq_digit p x hp hxm.1 hxm.2
    have dy := radix_key_eq_digit p y hp hym.1 hym.2
    rw [nkey_mod_split, nkey_mod_split, ← dx, ← dy, hxb, hyb]
    omega
  · -- across digit groups: a smaller digit forces a smaller key modulus
    have hrange : (List.range 256).Pairwise (· < ·) := List.pairwise_lt_range 256
    refine hrange.imp_of_mem ?_
    intro b1 b2 _ _ hlt x hx y hy
    have hxb : radix_key p x = b1 := by simpa using (List.mem_filter.mp hx).2
    have hyb : radix_key p y = b2 := by simpa using (List.mem_filter.mp hy).2
    have hxm := hb x (List.mem_of_mem_filter hx)
    have hym := hb y (List.mem_of_mem_filter hy)
    have dx := radix_key_eq_digit p x hp hxm.1 hxm.2
    have dy := radix_key_eq_digit p y hp hym.1 hym.2
    have hxlow : NKey x % 256 ^ p < 256 ^ p := Nat.mod_lt _ (Nat.pos_pow_of_pos _ (by norm_num))
    rw [nkey_mod_split, nkey_mod_split, ← dx, ← dy, hxb, hyb]
    have hmul : 256 ^ p * (b1 + 1) ≤ 256 ^ p * b2 := Nat.mul_le_mul_left _ (by omega)
    have hstep : NKey x % 256 ^ p + 256 ^ p * b1 < 256 ^ p * (b1 + 1) := by
      have := Nat.zero_le (256 ^ p * b1)
      nlinarith
    have := Nat.zero_le (NKey y % 256 ^ p)
    omega

lemma foldl_radix_sorted (k : Nat) (hk : k ≤ 12) (l : List MatchResult)
    (hb : ∀ r ∈ l, r.len < U32 ∧ r.offset < U64) :
    ((List.range k).foldl (fun acc p => radix_pass p acc) l).Pairwise
      fun a b => NKey a % 256 ^ k ≤ NKey b % 256 ^ k := by
  induction k with
  | zero =>
    simp only [List.range_zero, List.foldl_nil, pow_zero]
    exact pairwise_true _ (fun a b => by omega) l
  | succ k ih =>
    rw [List.range_succ, List.foldl_append, List.foldl_cons, List.foldl_nil]
    have hperm := foldl_radix_perm (List.range k) l
    refine radix_pass_sorted_step k _ (by omega) ?_ (ih (by omega))
    intro r hr
    exact hb r (hperm.mem_iff.mp hr)

/-- `x ^^^ (2^n - 1) = (2^n - 1) - x` for `x < 2^n`: xor with an all-ones
mask is arithmetic complement. -/
lemma xor_ones (n : Nat) : ∀ x, x < 2 ^ n → x ^^^ (2 ^ n - 1) = 2 ^ n - 1 - x := by
  induction n with
  | zero =>
    intro x hx
    interval_cases x
    rfl
  | succ n ih =>
    intro x hx
    have hP : (0:Nat) < 2 ^ n := Nat.pos_pow_of_pos _ (by norm_num)
    have hpow : (2:Nat) ^ (n + 1) = 2 * 2 ^ n := by rw [pow_succ]; ring
    have hdiv : (2 ^ (n + 1) - 1) / 2 = 2 ^ n - 1 := by omega
    have hmod : (2 ^ (n + 1) - 1) % 2 = 1 := by omega
    set y := x ^^^ (2 ^ (n + 1) - 1) with hy
    have hy2 : y / 2 = 2 ^ n - 1 - x / 2 := by
      rw [hy, Nat.xor_div_two, hdiv]
      exact ih (x / 2) (by omega)
    have hymod : y % 2 = 1 ↔ ¬ (x % 2 = 1) := by
      rw [hy, Nat.xor_mod_two_eq_one, hmod]
      tauto
    have hsplit := Nat.div_add_mod y 2
    have hxsplit := Nat.div_add_mod x 2
    have hm2 : y % 2 < 2 := Nat.mod_lt _ (by norm_num)
    have hx2 : x % 2 < 2 := Nat.mod_lt _ (by norm_num)
    rcases Nat.eq_zero_or_pos (x % 2) with h0 | h1
    · have hy1 : y % 2 = 1 := hymod.mpr (by omega)
      omega
    · have hy0 : ¬ (y % 2 = 1) := fun hc => (hymod.mp hc) (by omega)
      omega

lemma nkey_le_decode (a b : MatchResult)
    (ha : a.len < U32 ∧ a.offset < U64) (hb : b.len < U32 ∧ b.offset < U64)
    (h : NKey a ≤ NKey b) : offLex a b := by
  have hU : (U32 : Nat) = 2 ^ 32 := by norm_num [U32]
  have hxa : a.len ^^^ 4294967295 = 2 ^ 32 - 1 - a.len := by
    rw [show (4294967295 : Nat) = 2 ^ 32 - 1 by norm_num]
    exact xor_ones 32 a.len (by omega)
  have hxb : b.len ^^^ 4294967295 = 2 ^ 32 - 1 - b.len := by
    rw [show (4294967295 : Nat) = 2 ^ 32 - 1 by norm_num]
    exact xor_ones 32 b.len (by omega)
  rw [NKey, NKey, hxa, hxb, show (4294967296 : Nat) = 2 ^ 32 by norm_num] at h
  rw [offLex]
  have h32 : (0:Nat) < 2 ^ 32 := by norm_num
  have ha32 : a.len < 2 ^ 32 := by omega
  have hb32 : b.len < 2 ^ 32 := by omega
  rcases Nat.lt_trichotomy a.offset b.offset with hlt | heq | hgt
  · exact Or.inl hlt
  · refine Or.inr ⟨heq, ?_⟩
    rw [heq] at h
    omega
  · exfalso
    have hmul : 2 ^ 32 * (b.offset + 1) ≤ 2 ^ 32 * a.offset :=
      Nat.mul_le_mul_left _ (by omega)
    have hdist : 2 ^ 32 * (b.offset + 1) = 2 ^ 32 * b.offset + 2 ^ 32 := by ring
    omega

/-- The radix sort leaves the results sorted by offset ascending with length
descending among equal offsets, whenever lengths fit `uint32` and offsets fit
`size_t` (always true of values read from the compiled store). -/
lemma radix_sort_matches_sorted (l : List MatchResult)
    (hb : ∀ r ∈ l, r.len < U32 ∧ r.offset < U64) :
    (radix_sort_matches l).Pairwise offLex := by
  have h12 := foldl_radix_sorted 12 (by omega) l hb
  rw [radix_sort_matches]
  refine h12.imp_of_mem ?_
  intro x y hx hy hxy
  have hperm := foldl_radix_perm (List.range 12) l
  have hxm := hb x (hperm.mem_iff.mp hx)
  have hym := hb y (hperm.mem_iff.mp hy)
  have hxl := nkey_lt x hxm.1 hxm.2
  have hyl := nkey_lt y hym.1 hym.2
  rw [Nat.mod_eq_of_lt hxl, Nat.mod_eq_of_lt hyl] at hxy
  exact nkey_le_decode x y hxm hym hxy

/-! ## Shape of the raw match stream -/

lemma byte_getD_lt {l : List Nat} (h : ∀ b ∈ l, b < 256) (n : Nat) : l.getD n 0 < 256 := by
  rcases Nat.lt_or_ge n l.length with hn | hn
  · rw [List.getD_eq_getElem l 0 hn]
    exact h _ (List.getElem_mem hn)
  · rw [List.getD_eq_default l 0 hn]
    norm_num

lemma readU32_lt_U32 {f : List Nat} (hf : ∀ b ∈ f, b < 256) (off : Nat) :
    readU32 f off < U32 := by
  have h0 := byte_getD_lt hf off
  have h1 := byte_getD_lt hf (off + 1)
  have h2 := byte_getD_lt hf (off + 2)
  have h3 := byte_getD_lt hf (off + 3)
  have hU : U32 = 4294967296 := rfl
  rw [readU32]
  omega

lemma probe_go_sound {idx_arr bd : List Nat} {mask cand so : Nat}
    (hlen : idx_arr.length = mask + 1) :
    ∀ fuel idx, idx ≤ mask →
      probe_bucket_go idx_arr bd mask cand fuel idx = some so →
      so ∈ idx_arr ∧ so ≠ EMPTY_SLOT ∧ readU32 bd so = cand := by
  intro fuel
  induction fuel with
  | zero =>
    intro idx _ h
    simp [probe_bucket_go] at h
  | succ fuel ih =>
    intro idx hidx h
    rw [probe_bucket_go] at h
    by_cases hempty : idx_arr.getD idx 0 == EMPTY_SLOT
    · rw [if_pos hempty] at h
      exact absurd h (by simp)
    · rw [if_neg hempty] at h
      by_cases hkey : readU32 bd (idx_arr.getD idx 0) == cand
      · rw [if_pos hkey] at h
        have hso : idx_arr.getD idx 0 = so := by
          simpa using h
        have hmem : idx_arr.getD idx 0 ∈ idx_arr := by
          have hn : idx < idx_arr.length := by omega
          rw [List.getD_eq_getElem idx_arr 0 hn]
          exact List.getElem_mem hn
        exact ⟨hso ▸ hmem, hso ▸ (by simpa using hempty),
          hso ▸ (by simpa using hkey)⟩
      · rw [if_neg hkey] at h
        exact ih ((idx + 1) &&& mask) Nat.and_le_right h

lemma probe_bucket_sound {idx_arr bd : List Nat} {mask cand so : Nat}
    (hlen : idx_arr.length = mask + 1)
    (h : probe_bucket idx_arr bd mask cand = some so) :
    so ∈ idx_arr ∧ so ≠ EMPTY_SLOT ∧ readU32 bd so = cand :=
  probe_go_sound hlen _ _ Nat.and_le_right h

/-- Everything `scan_bucket_and_append` emits is a record of the bucket that
fits and byte-compares equal at `pos`. -/
lemma mem_scan_bucket {bd ps hay : List Nat} {junk bp pos : Nat}
    {wb wp ws ls le : Bool} {r : MatchResult}
    (hr : r ∈ scan_bucket_and_append bd ps hay junk bp pos wb wp ws ls le) :
    ∃ j < bucket_count bd bp,
      r = ⟨pos, rec_len bd bp j⟩ ∧
      rec_len bd bp j ≤ hay.length - pos ∧
      bytesMatch ps (rec_off bd bp j) hay junk pos (rec_len bd bp j) = true := by
  rw [scan_bucket_and_append] at hr
  simp only [List.mem_filterMap, List.mem_range] at hr
  obtain ⟨j, hj, hfj⟩ := hr
  refine ⟨j, hj, ?_⟩
  split at hfj
  · exact absurd hfj (by simp)
  · rename_i hfit
    split at hfj
    · exact absurd hfj (by simp)
    · rename_i hbm
      split at hfj
      · exact absurd hfj (by simp)
      · split at hfj
        · exact absurd hfj (by simp)
        · split at hfj
          · exact absurd hfj (by simp)
          · split at hfj
            · exact absurd hfj (by simp)
            · split at hfj
              · exact absurd hfj (by simp)
              · have hreq : r = ⟨pos, rec_len bd bp j⟩ := by
                  simpa using hfj.symm
                refine ⟨hreq, by omega, ?_⟩
                simpa using hbm

lemma mem_short_path4 {m : Matcher} {hay : List Nat} {junk pos : Nat}
    {wb wp ws ls le : Bool} {r : MatchResult}
    (hr : r ∈ short_path4 m hay junk pos wb wp ws ls le) :
    r = ⟨pos, 4⟩ ∧ 0 < m.sm.len4 ∧ 4 ≤ hay.length - pos ∧
      short_matcher_query4_fast m.sm (hay.getD pos junk) (hay.getD (pos + 1) junk)
        (hay.getD (pos + 2) junk) (hay.getD (pos + 3) junk) = true := by
  rw [short_path4] at hr
  split at hr
  · rename_i hgate
    split at hr
    · rename_i hquery
      split at hr
      · exact ⟨by simpa using hr, hgate.1, hgate.2, hquery⟩
      · simp at hr
    · simp at hr
  · simp at hr

lemma mem_short_path3 {m : Matcher} {hay : List Nat} {junk pos : Nat}
    {wb wp ws ls le : Bool} {r : MatchResult}
    (hr : r ∈ short_path3 m hay junk pos wb wp ws ls le) :
    r = ⟨pos, 3⟩ ∧ 0 < m.sm.len3 ∧ 3 ≤ hay.length - pos ∧
      short_matcher_query3_fast m.sm (hay.getD pos junk) (hay.getD (pos + 1) junk)
        (hay.getD (pos + 2) junk) = true := by
  rw [short_path3] at hr
  split at hr
  · rename_i hgate
    split at hr
    · rename_i hquery
      split at hr
      · exact ⟨by simpa using hr, hgate.1, hgate.2, hquery⟩
      · simp at hr
    · simp at hr
  · simp at hr

lemma mem_short_path2 {m : Matcher} {hay : List Nat} {junk pos : Nat}
    {wb wp ws : Bool} {r : MatchResult}
    (hr : r ∈ short_path2 m hay junk pos wb wp ws) :
    r = ⟨pos, 2⟩ ∧ 0 < m.sm.len2 ∧ 2 ≤ hay.length - pos ∧
      short_matcher_query2_fast m.sm (hay.getD pos junk)
        (hay.getD (pos + 1) junk) = true := by
  rw [short_path2] at hr
  split at hr
  · rename_i hgate
    split at hr
    · rename_i hquery
      split at hr
      · exact ⟨by simpa using hr, hgate.1, hgate.2, hquery⟩
      · simp at hr
    · simp at hr
  · simp at hr

lemma mem_short_path1 {m : Matcher} {hay : List Nat} {junk pos : Nat}
    {wb wp ws : Bool} {r : MatchResult}
    (hr : r ∈ short_path1 m hay junk pos wb wp ws) :
    r = ⟨pos, 1⟩ ∧ 0 < m.sm.len1 ∧
      short_matcher_query1_fast m.sm (hay.getD pos junk) = true := by
  rw [short_path1] at hr
  split at hr
  · rename_i hgate
    split at hr
    · rename_i hquery
      split at hr
      · exact ⟨by simpa using hr, hgate, hquery⟩
      · simp at hr
    · simp at hr
  · simp at hr

lemma mem_short_path {m : Matcher} {hay : List Nat} {junk pos : Nat}
    {wb wp ws ls le : Bool} {r : MatchResult}
    (hr : r ∈ short_path m hay junk pos wb wp ws ls le) :
    r.offset = pos ∧ (r.len = 1 ∨ r.len = 2 ∨ r.len = 3 ∨ r.len = 4) := by
  rw [short_path] at hr
  split at hr
  · rcases List.mem_append.mp hr with h123 | h1
    · rcases List.mem_append.mp h123 with h12 | h2
      · rcases List.mem_append.mp h12 with h4 | h3
        · rw [(mem_short_path4 h4).1]
          exact ⟨rfl, by simp⟩
        · rw [(mem_short_path3 h3).1]
          exact ⟨rfl, by simp⟩
      · rw [(mem_short_path2 h2).1]
        exact ⟨rfl, by simp⟩
    · rw [(mem_short_path1 h1).1]
      exact ⟨rfl, by simp⟩
  · simp at hr

/-- Everything the long path emits at `pos` is a fitting, byte-equal record
of the probed bucket (a bucket reachable through the index array). -/
lemma mem_long_path {m : Matcher} {hay : List Nat} {junk pos : Nat}
    {wb wp ws ls le : Bool} {r : MatchResult}
    (hidx : m.index_array.length = m.table_size) (hts : 1 ≤ m.table_size)
    (hr : r ∈ long_path m hay junk pos wb wp ws ls le) :
    ∃ so ∈ m.index_array, so ≠ EMPTY_SLOT ∧
      ∃ j < bucket_count m.bucket_data so,
        r = ⟨pos, rec_len m.bucket_data so j⟩ ∧
        rec_len m.bucket_data so j ≤ hay.length - pos ∧
        bytesMatch m.pattern_store (rec_off m.bucket_data so j) hay junk pos
          (rec_len m.bucket_data so j) = true := by
  rw [long_path] at hr
  split at hr
  · split at hr
    · rename_i hbloom
      revert hr
      cases hprobe : probe_bucket m.index_array m.bucket_data (m.table_size - 1)
          (pack_gram (hay.getD pos junk) (hay.getD (pos + 1) junk)
            (hay.getD (pos + 2) junk) (hay.getD (pos + 3) junk)) with
      | none =>
        intro hr
        simp at hr
      | some so =>
        intro hr
        have hsound := probe_bucket_sound (by omega) hprobe
        obtain ⟨j, hj, hshape⟩ := mem_scan_bucket hr
        exact ⟨so, hsound.1, hsound.2.1, j, hj, hshape⟩
    · simp at hr
  · simp at hr

lemma mem_position_matches {m : Matcher} {hay : List Nat} {junk pos : Nat}
    {wb wp ws ls le : Bool} {r : MatchResult}
    (hidx : m.index_array.length = m.table_size) (hts : 1 ≤ m.table_size)
    (hr : r ∈ position_matches m hay junk pos wb wp ws ls le) :
    r.offset = pos ∧
      (r.len ≤ 4 ∨ ∃ so ∈ m.index_array, so ≠ EMPTY_SLOT ∧
        ∃ j < bucket_count m.bucket_data so, r.len = rec_len m.bucket_data so j) := by
  rw [position_matches] at hr
  split at hr
  · simp at hr
  · rw [List.mem_append] at hr
    rcases hr with hlong | hshort
    · obtain ⟨so, hso, hne, j, hj, hshape⟩ := mem_long_path hidx hts hlong
      rw [hshape.1]
      exact ⟨rfl, Or.inr ⟨so, hso, hne, j, hj, rfl⟩⟩
    · obtain ⟨hoff, hlen⟩ := mem_short_path hshort
      exact ⟨hoff, Or.inl (by omega)⟩

lemma mem_all_matches {m : Matcher} {hay : List Nat} {junk : Nat}
    {wb wp ws ls le : Bool} {r : MatchResult}
    (hidx : m.index_array.length = m.table_size) (hts : 1 ≤ m.table_size)
    (hr : r ∈ all_matches m hay junk wb wp ws ls le) :
    ∃ pos < hay.length, r ∈ position_matches m hay junk pos wb wp ws ls le := by
  rw [all_matches] at hr
  simp only [List.mem_flatMap, List.mem_range] at hr
  obtain ⟨pos, hpos, hmem⟩ := hr
  exact ⟨pos, hpos, hmem⟩

lemma all_matches_bounds {m : Matcher} {hay : List Nat} {junk : Nat}
    {wb wp ws ls le : Bool}
    (hbytes : ∀ b ∈ m.bucket_data, b < 256)
    (hidx : m.index_array.length = m.table_size) (hts : 1 ≤ m.table_size)
    (hlen : hay.length ≤ U64) :
    ∀ r ∈ all_matches m hay junk wb wp ws ls le, r.len < U32 ∧ r.offset < U64 := by
  intro r hr
  obtain ⟨pos, hpos, hmem⟩ := mem_all_matches hidx hts hr
  obtain ⟨hoff, hshape⟩ := mem_position_matches hidx hts hmem
  constructor
  · rcases hshape with hle | ⟨so, _, _, j, _, hrec⟩
    · have : (4:Nat) < U32 := by norm_num [U32]
      omega
    · rw [hrec]
      exact readU32_lt_U32 hbytes _
  · omega

lemma apply_filter_go_sublist (f : MatchResult → MatchResult → Bool) :
    ∀ (prev : Option MatchResult) (v : List MatchResult),
      List.Sublist (apply_filter_go f prev v) v := by
  intro prev v
  induction v generalizing prev with
  | nil =>
    cases prev <;> simp [apply_filter_go]
  | cons r rest ih =>
    cases prev with
    | none =>
      rw [apply_filter_go]
      exact (ih (some r)).cons₂ r
    | some p =>
      rw [apply_filter_go]
      split
      · exact (ih (some r)).cons₂ r
      · exact (ih (some p)).cons r

lemma apply_filter_sublist (f : MatchResult → MatchResult → Bool)
    (v : List MatchResult) : List.Sublist (apply_filter f v) v :=
  apply_filter_go_sublist f none v

/-- C2 (amended): for every haystack and every option setting, the results
of the match operation are sorted with primary key OFFSET ASCENDING and
secondary key length descending (`offLex`), and in this model the order is a
deterministic function of the inputs.  (The claim's primary/secondary keys
are swapped: the radix sort's last eight passes are on the offset, making it
the primary key.) -/
theorem core_match_sorted_offLex (m : Matcher) (hay : List Nat) (junk : Nat)
    (no_ov lo wb wp ws ls le : Bool)
    (hbytes : ∀ b ∈ m.bucket_data, b < 256)
    (hidx : m.index_array.length = m.table_size) (hts : 1 ≤ m.table_size)
    (hlen : hay.length ≤ U64) :
    (core_match m hay junk no_ov lo wb wp ws ls le).Pairwise offLex := by
  rw [core_match, finalize_match_results]
  have hflat : ([all_matches m hay junk wb wp ws ls le]).flatten =
      all_matches m hay junk wb wp ws ls le := by simp
  rw [hflat]
  have hsorted : (radix_sort_matches (all_matches m hay junk wb wp ws ls le)).Pairwise offLex :=
    radix_sort_matches_sorted _ (all_matches_bounds hbytes hidx hts hlen)
  have h1 : (if lo then apply_filter filter_longest
      (radix_sort_matches (all_matches m hay junk wb wp ws ls le)) else
      radix_sort_matches (all_matches m hay junk wb wp ws ls le)).Pairwise offLex := by
    split
    · exact List.Pairwise.sublist (apply_filter_sublist _ _) hsorted
    · exact hsorted
  split
  · exact List.Pairwise.sublist (apply_filter_sublist _ _) h1
  · exact h1

/-- Witness for C2 (amended) on the `{"ab", "bcd"}` matcher and `"abcd"`. -/
theorem core_match_sorted_offLex_witness :
    (core_match c2Matcher [97, 98, 99, 100] 0 false false false false false
      false false).Pairwise offLex :=
  core_match_sorted_offLex c2Matcher [97, 98, 99, 100] 0 false false false false false
    false false (by intro b hb; simp [c2Matcher] at hb) (by rfl) (by norm_num [c2Matcher])
    (by norm_num [U64])

/-! ## Post-filter semantics (C5) -/

lemma go_longest_sorted (l : List MatchResult) :
    ∀ p, l.Pairwise (fun a b => a.offset ≤ b.offset) →
      (∀ x ∈ l, p.offset ≤ x.offset) →
      (apply_filter_go filter_longest (some p) l).Pairwise
          (fun a b => a.offset < b.offset) ∧
        ∀ x ∈ apply_filter_go filter_longest (some p) l, p.offset < x.offset := by
  induction l with
  | nil =>
    intro p _ _
    exact ⟨List.Pairwise.nil, by simp [apply_filter_go]⟩
  | cons r rest ih =>
    intro p hsort hge
    have hr_rest : ∀ x ∈ rest, r.offset ≤ x.offset :=
      fun x hx => List.rel_of_pairwise_cons hsort hx
    have hrest_sort := List.Pairwise.of_cons hsort
    rw [apply_filter_go]
    by_cases hkeep : filter_longest p r = true
    · rw [if_pos hkeep]
      have hpr : p.offset < r.offset := by
        have : r.offset ≠ p.offset := by simpa [filter_longest] using hkeep
        have := hge r (List.mem_cons_self r rest)
        omega
      obtain ⟨hpw, hall⟩ := ih r hrest_sort hr_rest
      refine ⟨List.Pairwise.cons (fun y hy => hall y hy) hpw, ?_⟩
      intro x hx
      rcases List.mem_cons.mp hx with rfl | hx'
      · exact hpr
      · exact Nat.lt_trans hpr (hall x hx')
    · rw [if_neg hkeep]
      have hoff : r.offset = p.offset := by
        simpa [filter_longest] using hkeep
      exact ih p hrest_sort (fun x hx => by have := hr_rest x hx; omega)

/-- On an offset-sorted list, the `longest_only` pass leaves pairwise
strictly increasing offsets: no two survivors share an offset. -/
lemma longest_pass_offsets (l : List MatchResult)
    (hsort : l.Pairwise fun a b => a.offset ≤ b.offset) :
    (apply_filter filter_longest l).Pairwise fun a b => a.offset < b.offset := by
  rw [apply_filter]
  cases l with
  | nil => exact List.Pairwise.nil
  | cons r rest =>
    rw [apply_filter_go]
    have hr_rest : ∀ x ∈ rest, r.offset ≤ x.offset :=
      fun x hx => List.rel_of_pairwise_cons hsort hx
    obtain ⟨hpw, hall⟩ := go_longest_sorted rest r (List.Pairwise.of_cons hsort) hr_rest
    exact List.Pairwise.cons (fun y hy => hall y hy) hpw

lemma go_longest_keeps_first (l : List MatchResult) :
    ∀ p, l.Pairwise (fun a b => a.offset ≤ b.offset) →
      (∀ x ∈ l, p.offset ≤ x.offset) →
      ∀ r ∈ l, r.offset ≠ p.offset →
        ∀ r', l.find? (fun x => x.offset == r.offset) = some r' →
          r' ∈ apply_filter_go filter_longest (some p) l := by
  induction l with
  | nil =>
    intro p _ _ r hr
    simp at hr
  | cons h t ih =>
    intro p hsort hge r hr hrp r' hfind
    have ht_sort := List.Pairwise.of_cons hsort
    have hh_t : ∀ x ∈ t, h.offset ≤ x.offset :=
      fun x hx => List.rel_of_pairwise_cons hsort hx
    rw [List.find?_cons] at hfind
    rw [apply_filter_go]
    cases hh : h.offset == r.offset with
    | true =>
      simp only [hh] at hfind
      have hr' : h = r' := by simpa using hfind
      have hkeep : filter_longest p h = true := by
        have : h.offset = r.offset := by simpa using hh
        simp only [filter_longest, bne_iff_ne]
        omega
      rw [if_pos hkeep]
      exact hr' ▸ List.mem_cons_self h _
    | false =>
      simp only [hh] at hfind
      have hrt : r ∈ t := by
        rcases List.mem_cons.mp hr with rfl | hrt
        · simp at hh
        · exact hrt
      by_cases hkeep : filter_longest p h = true
      · rw [if_pos hkeep]
        refine List.mem_cons_of_mem h ?_
        refine ih h ht_sort hh_t r hrt ?_ r' hfind
        intro hc
        have : (h.offset == r.offset) = true := by simp [hc]
        rw [hh] at this
        exact absurd this (by simp)
      · rw [if_neg hkeep]
        have hoff : h.offset = p.offset := by
          have := hkeep
          simp only [filter_longest, bne_iff_ne, Decidable.not_not] at this
          omega
        exact ih p ht_sort (fun x hx => hoff ▸ hh_t x hx) r hrt hrp r' hfind

/-- On an offset-sorted list, the first result at each offset survives the
`longest_only` pass. -/
lemma longest_pass_keeps_first (l : List MatchResult)
    (hsort : l.Pairwise fun a b => a.offset ≤ b.offset) :
    ∀ r ∈ l, ∀ r', l.find? (fun x => x.offset == r.offset) = some r' →
      r' ∈ apply_filter filter_longest l := by
  intro r hr r' hfind
  rw [apply_filter]
  cases l with
  | nil => simp at hr
  | cons h t =>
    rw [List.find?_cons] at hfind
    rw [apply_filter_go]
    cases hh : h.offset == r.offset with
    | true =>
      simp only [hh] at hfind
      have : h = r' := by simpa using hfind
      exact this ▸ List.mem_cons_self h _
    | false =>
      simp only [hh] at hfind
      have hrt : r ∈ t := by
        rcases List.mem_cons.mp hr with rfl | hrt
        · simp at hh
        · exact hrt
      refine List.mem_cons_of_mem h ?_
      refine go_longest_keeps_first t h (List.Pairwise.of_cons hsort)
        (fun x hx => List.rel_of_pairwise_cons hsort hx) r hrt ?_ r' hfind
      intro hc
      have : (h.offset == r.offset) = true := by simp [hc]
      rw [hh] at this
      exact absurd this (by simp)

lemma go_no_overlap_disjoint (l : List MatchResult) :
    ∀ p, (apply_filter_go filter_no_overlap (some p) l).Pairwise
        (fun a b => a.offset + a.len ≤ b.offset) ∧
      ∀ x ∈ apply_filter_go filter_no_overlap (some p) l,
        p.offset + p.len ≤ x.offset := by
  induction l with
  | nil =>
    intro p
    exact ⟨List.Pairwise.nil, by simp [apply_filter_go]⟩
  | cons h t ih =>
    intro p
    rw [apply_filter_go]
    by_cases hkeep : filter_no_overlap p h = true
    · rw [if_pos hkeep]
      have hph : p.offset + p.len ≤ h.offset := by
        simpa [filter_no_overlap] using hkeep
      obtain ⟨hpw, hall⟩ := ih h
      refine ⟨List.Pairwise.cons (fun y hy => hall y hy) hpw, ?_⟩
      intro x hx
      rcases List.mem_cons.mp hx with rfl | hx'
      · exact hph
      · have := hall x hx'
        omega
    · rw [if_neg hkeep]
      exact ih p

/-- The `no_overlap` pass always leaves pairwise offset-disjoint intervals. -/
lemma no_overlap_pass_disjoint (l : List MatchResult) :
    (apply_filter filter_no_overlap l).Pairwise
      fun a b => a.offset + a.len ≤ b.offset := by
  rw [apply_filter]
  cases l with
  | nil => exact List.Pairwise.nil
  | cons h t =>
    rw [apply_filter_go]
    obtain ⟨hpw, hall⟩ := go_no_overlap_disjoint t h
    exact List.Pairwise.cons (fun y hy => hall y hy) hpw

/-- C5: post-filter semantics and composition.  After the radix sort,
`longest_only` is the compaction by `filter_longest`: the survivors are a
subsequence containing the first result at each offset, and no two survivors
share an offset.  `no_overlap` keeps a result only when its offset is at
least the previous kept result's offset plus length, so its survivors are
pairwise offset-disjoint intervals.  When both are set, `longest_only` runs
first. -/
theorem post_filters_spec (m : Matcher) (hay : List Nat) (junk : Nat)
    (wb wp ws ls le : Bool)
    (hbytes : ∀ b ∈ m.bucket_data, b < 256)
    (hidx : m.index_array.length = m.table_size) (hts : 1 ≤ m.table_size)
    (hlen : hay.length ≤ U64) :
    (core_match m hay junk false true wb wp ws ls le =
        apply_filter filter_longest
          (radix_sort_matches (all_matches m hay junk wb wp ws ls le))) ∧
      List.Sublist (core_match m hay junk false true wb wp ws ls le)
        (radix_sort_matches (all_matches m hay junk wb wp ws ls le)) ∧
      (core_match m hay junk false true wb wp ws ls le).Pairwise
        (fun a b => a.offset < b.offset) ∧
      (∀ r ∈ radix_sort_matches (all_matches m hay junk wb wp ws ls le), ∀ r',
        (radix_sort_matches (all_matches m hay junk wb wp ws ls le)).find?
            (fun x => x.offset == r.offset) = some r' →
          r' ∈ core_match m hay junk false true wb wp ws ls le) ∧
      (∀ lo, (core_match m hay junk true lo wb wp ws ls le).Pairwise
        (fun a b => a.offset + a.len ≤ b.offset)) ∧
      (core_match m hay junk true true wb wp ws ls le =
        apply_filter filter_no_overlap (apply_filter filter_longest
          (radix_sort_matches (all_matches m hay junk wb wp ws ls le)))) := by
  have heq : core_match m hay junk false true wb wp ws ls le =
      apply_filter filter_longest
        (radix_sort_matches (all_matches m hay junk wb wp ws ls le)) := by
    rw [core_match, finalize_match_results]
    simp
  have hsorted : (radix_sort_matches (all_matches m hay junk wb wp ws ls le)).Pairwise
      (fun a b => a.offset ≤ b.offset) := by
    refine (radix_sort_matches_sorted _ (all_matches_bounds hbytes hidx hts hlen)).imp ?_
    intro a b hab
    rcases hab with h | ⟨h, _⟩ <;> omega
  refine ⟨heq, ?_, ?_, ?_, ?_, ?_⟩
  · rw [heq]
    exact apply_filter_sublist _ _
  · rw [heq]
    exact longest_pass_offsets _ hsorted
  · intro r hr r' hfind
    rw [heq]
    exact longest_pass_keeps_first _ hsorted r hr r' hfind
  · intro lo
    rw [core_match, finalize_match_results]
    simp only [if_true]
    exact no_overlap_pass_disjoint _
  · rw [core_match, finalize_match_results]
    simp

/-- Witness for C5 on the `{"ab", "bcd"}` matcher and haystack `"abcd"`. -/
theorem post_filters_spec_witness :
    (core_match c2Matcher [97, 98, 99, 100] 0 false true false false false false false =
        apply_filter filter_longest
          (radix_sort_matches (all_matches c2Matcher [97, 98, 99, 100] 0 false false false
            false false))) ∧
      List.Sublist (core_match c2Matcher [97, 98, 99, 100] 0 false true false false false
          false false)
        (radix_sort_matches (all_matches c2Matcher [97, 98, 99, 100] 0 false false false
          false false)) ∧
      (core_match c2Matcher [97, 98, 99, 100] 0 false true false false false false
          false).Pairwise (fun a b => a.offset < b.offset) ∧
      (∀ r ∈ radix_sort_matches (all_matches c2Matcher [97, 98, 99, 100] 0 false false false
          false false), ∀ r',
        (radix_sort_matches (all_matches c2Matcher [97, 98, 99, 100] 0 false false false
            false false)).find? (fun x => x.offset == r.offset) = some r' →
          r' ∈ core_match c2Matcher [97, 98, 99, 100] 0 false true false false false
            false false) ∧
      (∀ lo, (core_match c2Matcher [97, 98, 99, 100] 0 true lo false false false false
          false).Pairwise (fun a b => a.offset + a.len ≤ b.offset)) ∧
      (core_match c2Matcher [97, 98, 99, 100] 0 true true false false false false false =
        apply_filter filter_no_overlap (apply_filter filter_longest
          (radix_sort_matches (all_matches c2Matcher [97, 98, 99, 100] 0 false false false
            false false)))) :=
  post_filters_spec c2Matcher [97, 98, 99, 100] 0 false false false false false
    (by intro b hb; simp [c2Matcher] at hb) (by rfl) (by norm_num [c2Matcher])
    (by norm_num [U64])

/-! ## Chunked normalization wrapper (`omega_list_matcher_match`, lines 930-1015) -/

/-- `CASE_INSENSITIVE_WINDOW_SIZE`: 4 MiB. -/
def WINDOW_SIZE : Nat := 4 * 1024 * 1024

/-- The source bytes normalized for window `k`: the loop sets
`base = chunk_idx * chunk_size`, `win = min(haystack_size - base, chunk_size)`
and passes exactly `haystack + base .. haystack + base + win` to
`transform_apply` — no trailing bytes beyond the window are included. -/
def wrapper_window (hay : List Nat) (k : Nat) : List Nat :=
  (hay.drop (k * WINDOW_SIZE)).take (min (hay.length - k * WINDOW_SIZE) WINDOW_SIZE)

/-- `omega_list_matcher_match`: without a transform, plain `core_match`; with
one, normalize each 4 MiB window independently, scan it, remap offsets (via
the back-map when punctuation or whitespace flags are set, else by adding the
window base), and finalize the merged chunk vectors. -/
def omega_list_matcher_match (m : Matcher) (hay : List Nat) (junk : Nat)
    (no_ov lo wb wp ws ls le : Bool) : List MatchResult :=
  match m.transform_table with
  | none => core_match m hay junk no_ov lo wb wp ws ls le
  | some tt =>
    let numChunks := (hay.length + WINDOW_SIZE - 1) / WINDOW_SIZE
    finalize_match_results
      ((List.range numChunks).map fun k =>
        let base := k * WINDOW_SIZE
        let tr := transform_apply tt (wrapper_window hay k)
        let r := core_match m tr.1 junk no_ov lo wb wp ws ls le
        if m.flag_punct || m.flag_elide then
          r.map fun mr =>
            let o := base + tr.2.getD mr.offset 0
            let e := base + tr.2.getD (mr.offset + mr.len - 1) 0
            ⟨o, e - o + 1⟩
        else
          r.map fun mr => ⟨mr.offset + base, mr.len⟩)
      no_ov lo

/-- C3 evidence: the bytes handed to the normalizer for window `k` are
exactly the window's own bytes, capped at `WINDOW_SIZE` — the wrapper never
extends a window with `largest_pattern_length - 1` trailing source bytes
(and it performs no out-of-window discard), so a match straddling a window
boundary in normalized space is missed. -/
theorem wrapper_window_no_extension (hay : List Nat) (k : Nat) :
    (wrapper_window hay k).length ≤ WINDOW_SIZE ∧
      wrapper_window hay k =
        (hay.drop (k * WINDOW_SIZE)).take
          (min (hay.length - k * WINDOW_SIZE) WINDOW_SIZE) := by
  constructor
  · rw [wrapper_window]
    simp only [List.length_take, List.length_drop]
    omega
  · rfl

/-! ## Byte-slice lemmas and the staged comparison -/

lemma listSlice_length {l : List Nat} {q L : Nat} (h : q + L ≤ l.length) :
    (listSlice l q L).length = L := by
  rw [listSlice]
  simp only [List.length_take, List.length_drop]
  omega

lemma listSlice_getD {l : List Nat} {q L : Nat} (h : q + L ≤ l.length)
    {i : Nat} (hi : i < L) (d : Nat) :
    (listSlice l q L).getD i d = l.getD (q + i) d := by
  have hlen : (listSlice l q L).length = L := listSlice_length h
  have hidx : i < (listSlice l q L).length := by omega
  rw [List.getD_eq_getElem _ d hidx, List.getD_eq_getElem l d (by omega)]
  simp only [listSlice, List.getElem_take, List.getElem_drop]

/-- Pointwise reading of an occurrence `listSlice hay q |p| = p`. -/
lemma occ_getD {hay p : List Nat} {q : Nat} (hocc : listSlice hay q p.length = p)
    (hb : q + p.length ≤ hay.length) {i : Nat} (hi : i < p.length) (d d' : Nat) :
    hay.getD (q + i) d = p.getD i d' := by
  conv_rhs => rw [← hocc]
  rw [listSlice_getD hb hi d']
  rw [List.getD_eq_getElem hay d (by omega), List.getD_eq_getElem hay d' (by omega)]

lemma listSlice_eq_of_pointwise {l1 l2 : List Nat} {o1 o2 n : Nat}
    (h1 : o1 + n ≤ l1.length) (h2 : o2 + n ≤ l2.length)
    (h : ∀ i < n, l1.getD (o1 + i) 0 = l2.getD (o2 + i) 0) :
    listSlice l1 o1 n = listSlice l2 o2 n := by
  apply List.ext_getElem
  · rw [listSlice_length h1, listSlice_length h2]
  · intro i hi1 hi2
    have hi : i < n := by
      rw [listSlice_length h1] at hi1
      exact hi1
    have hpt := h i hi
    rw [← listSlice_getD h1 hi 0, ← listSlice_getD h2 hi 0] at hpt
    rw [List.getD_eq_getElem _ 0 hi1, List.getD_eq_getElem _ 0 hi2] at hpt
    exact hpt

/-- The staged first/last/middle comparison of `scan_bucket_and_append`
agrees with pointwise byte equality. -/
lemma bytesMatch_iff {ps hay : List Nat} {off junk pos len : Nat} (hlen : 1 ≤ len) :
    bytesMatch ps off hay junk pos len = true ↔
      ∀ i < len, hay.getD (pos + i) junk = ps.getD (off + i) 0 := by
  rw [bytesMatch]
  by_cases h1 : len = 1
  · subst h1
    rw [if_pos (by simp)]
    constructor
    · intro h i hi
      interval_cases i
      simpa using h
    · intro h
      have := h 0 (by omega)
      simpa using this
  · rw [if_neg (by simpa using h1)]
    constructor
    · intro h i hi
      simp only [Bool.and_eq_true, Bool.or_eq_true, decide_eq_true_eq, beq_iff_eq] at h
      obtain ⟨⟨hfirst, hlast⟩, hmid⟩ := h
      rcases Nat.eq_zero_or_pos i with rfl | hipos
      · simpa using hfirst
      · by_cases hilast : i = len - 1
        · subst hilast
          have e3 : pos + len - 1 = pos + (len - 1) := by omega
          have e4 : off + len - 1 = off + (len - 1) := by omega
          rw [e3, e4] at hlast
          exact hlast
        · rcases hmid with hle2 | hmem
          · omega
          · rw [memeq, List.all_eq_true] at hmem
            have hm := hmem (i - 1) (List.mem_range.mpr (by omega))
            simp only [beq_iff_eq] at hm
            have e1 : pos + 1 + (i - 1) = pos + i := by omega
            have e2 : off + 1 + (i - 1) = off + i := by omega
            rw [e1, e2] at hm
            exact hm
    · intro h
      simp only [Bool.and_eq_true, Bool.or_eq_true, decide_eq_true_eq, beq_iff_eq]
      have hlast := h (len - 1) (by omega)
      have e3 : pos + len - 1 = pos + (len - 1) := by omega
      have e4 : off + len - 1 = off + (len - 1) := by omega
      rw [← e3, ← e4] at hlast
      refine ⟨⟨by simpa using h 0 (by omega), hlast⟩, ?_⟩
      by_cases hle : len ≤ 2
      · exact Or.inl hle
      · refine Or.inr ?_
        rw [memeq, List.all_eq_true]
        intro i hi
        have hi' := List.mem_range.mp hi
        simp only [beq_iff_eq]
        have hm := h (i + 1) (by omega)
        have e1 : pos + (i + 1) = pos + 1 + i := by omega
        have e2 : off + (i + 1) = off + 1 + i := by omega
        rw [e1, e2] at hm
        exact hm

/-! ## Option-chain helpers for the bucket scan entry -/

lemma chain7_some {α : Type} {v r : α} {p1 p2 p3 p4 p5 p6 p7 : Prop}
    [Decidable p1] [Decidable p2] [Decidable p3] [Decidable p4] [Decidable p5]
    [Decidable p6] [Decidable p7]
    (h : (if p1 then none else if p2 then none else if p3 then none
        else if p4 then none else if p5 then none else if p6 then none
        else if p7 then none else some v) = some r) :
    r = v ∧ ¬ p1 ∧ ¬ p2 := by
  split at h
  · exact absurd h (by simp)
  · rename_i h1
    split at h
    · exact absurd h (by simp)
    · rename_i h2
      split at h
      · exact absurd h (by simp)
      · split at h
        · exact absurd h (by simp)
        · split at h
          · exact absurd h (by simp)
          · split at h
            · exact absurd h (by simp)
            · split at h
              · exact absurd h (by simp)
              · exact ⟨(Option.some.inj h).symm, h1, h2⟩

lemma chain7_build {α : Type} {v : α} {p1 p2 p3 p4 p5 p6 p7 : Prop}
    [Decidable p1] [Decidable p2] [Decidable p3] [Decidable p4] [Decidable p5]
    [Decidable p6] [Decidable p7]
    (h1 : ¬ p1) (h2 : ¬ p2) (h3 : ¬ p3) (h4 : ¬ p4) (h5 : ¬ p5) (h6 : ¬ p6)
    (h7 : ¬ p7) :
    (if p1 then none else if p2 then none else if p3 then none
        else if p4 then none else if p5 then none else if p6 then none
        else if p7 then none else some v) = some v := by
  rw [if_neg h1, if_neg h2, if_neg h3, if_neg h4, if_neg h5, if_neg h6, if_neg h7]

/-- With all filter options false, every fitting, byte-equal bucket record is
emitted by `scan_bucket_and_append`. -/
lemma scan_bucket_complete {bd ps hay : List Nat} {junk bp pos j : Nat}
    (hj : j < bucket_count bd bp)
    (hfit : rec_len bd bp j ≤ hay.length - pos)
    (hbm : bytesMatch ps (rec_off bd bp j) hay junk pos (rec_len bd bp j) = true) :
    (⟨pos, rec_len bd bp j⟩ : MatchResult) ∈
      scan_bucket_and_append bd ps hay junk bp pos false false false false false := by
  rw [scan_bucket_and_append]
  simp only [List.mem_filterMap, List.mem_range]
  refine ⟨j, hj, ?_⟩
  refine chain7_build (by omega) (by simp [hbm]) (by simp) (by simp) (by simp)
    (by simp) (by simp)

/-! ## Completeness of the per-position paths (all options false) -/

lemma short_path4_complete {m : Matcher} {hay : List Nat} {junk pos : Nat}
    (hl : 0 < m.sm.len4) (hfit : 4 ≤ hay.length - pos)
    (hq : short_matcher_query4_fast m.sm (hay.getD pos junk) (hay.getD (pos + 1) junk)
      (hay.getD (pos + 2) junk) (hay.getD (pos + 3) junk) = true) :
    (⟨pos, 4⟩ : MatchResult) ∈ short_path4 m hay junk pos false false false false false := by
  rw [short_path4, if_pos ⟨hl, hfit⟩, if_pos hq, if_pos (by simp)]
  exact List.mem_singleton.mpr rfl

lemma short_path3_complete {m : Matcher} {hay : List Nat} {junk pos : Nat}
    (hl : 0 < m.sm.len3) (hfit : 3 ≤ hay.length - pos)
    (hq : short_matcher_query3_fast m.sm (hay.getD pos junk) (hay.getD (pos + 1) junk)
      (hay.getD (pos + 2) junk) = true) :
    (⟨pos, 3⟩ : MatchResult) ∈ short_path3 m hay junk pos false false false false false := by
  rw [short_path3, if_pos ⟨hl, hfit⟩, if_pos hq, if_pos (by simp)]
  exact List.mem_singleton.mpr rfl

lemma short_path2_complete {m : Matcher} {hay : List Nat} {junk pos : Nat}
    (hl : 0 < m.sm.len2) (hfit : 2 ≤ hay.length - pos)
    (hq : short_matcher_query2_fast m.sm (hay.getD pos junk)
      (hay.getD (pos + 1) junk) = true) :
    (⟨pos, 2⟩ : MatchResult) ∈ short_path2 m hay junk pos false false false := by
  rw [short_path2, if_pos ⟨hl, hfit⟩, if_pos hq, if_pos (by simp)]
  exact List.mem_singleton.mpr rfl

lemma short_path1_complete {m : Matcher} {hay : List Nat} {junk pos : Nat}
    (hl : 0 < m.sm.len1)
    (hq : short_matcher_query1_fast m.sm (hay.getD pos junk) = true) :
    (⟨pos, 1⟩ : MatchResult) ∈ short_path1 m hay junk pos false false false := by
  rw [short_path1, if_pos hl, if_pos hq, if_pos (by simp)]
  exact List.mem_singleton.mpr rfl

lemma position_matches_of_long {m : Matcher} {hay : List Nat} {junk pos : Nat}
    {r : MatchResult}
    (h : r ∈ long_path m hay junk pos false false false false false) :
    r ∈ position_matches m hay junk pos false false false false false := by
  rw [position_matches, if_neg (by simp)]
  exact List.mem_append_left _ h

lemma position_matches_of_short {m : Matcher} {hay : List Nat} {junk pos : Nat}
    {r : MatchResult} (hsm : m.smallest ≤ 4)
    (h : r ∈ short_path4 m hay junk pos false false false false false ∨
      r ∈ short_path3 m hay junk pos false false false false false ∨
      r ∈ short_path2 m hay junk pos false false false ∨
      r ∈ short_path1 m hay junk pos false false false) :
    r ∈ position_matches m hay junk pos false false false false false := by
  rw [position_matches, if_neg (by simp)]
  refine List.mem_append_right _ ?_
  rw [short_path, if_pos hsm]
  rcases h with h4 | h3 | h2 | h1
  · exact List.mem_append_left _ (List.mem_append_left _ (List.mem_append_left _ h4))
  · exact List.mem_append_left _ (List.mem_append_left _ (List.mem_append_right _ h3))
  · exact List.mem_append_left _ (List.mem_append_right _ h2)
  · exact List.mem_append_right _ h1

lemma all_matches_of_position {m : Matcher} {hay : List Nat} {junk pos : Nat}
    {wb wp ws ls le : Bool} {r : MatchResult} (hpos : pos < hay.length)
    (h : r ∈ position_matches m hay junk pos wb wp ws ls le) :
    r ∈ all_matches m hay junk wb wp ws ls le := by
  rw [all_matches]
  exact List.mem_flatMap.mpr ⟨pos, List.mem_range.mpr hpos, h⟩

/-- With both post-filters off, `core_match` is the radix sort of the raw
stream, hence a permutation of it. -/
lemma core_match_all_false_perm (m : Matcher) (hay : List Nat) (junk : Nat)
    (wb wp ws ls le : Bool) :
    List.Perm (core_match m hay junk false false wb wp ws ls le)
      (all_matches m hay junk wb wp ws ls le) := by
  rw [core_match, finalize_match_results]
  simp only [Bool.false_eq_true, if_false, List.flatten_cons, List.flatten_nil,
    List.append_nil]
  exact radix_sort_matches_perm _

lemma listSlice_eq_map {l : List Nat} {q n : Nat} (h : q + n ≤ l.length) :
    listSlice l q n = (List.range n).map fun i => l.getD (q + i) 0 := by
  apply List.ext_getElem
  · rw [listSlice_length h]
    simp
  · intro i h1 h2
    have hi : i < n := by
      rw [listSlice_length h] at h1
      exact h1
    rw [List.getElem_map, List.getElem_range]
    rw [← List.getD_eq_getElem _ 0 h1, listSlice_getD h hi 0,
      List.getD_eq_getElem l 0 (by omega)]

lemma listSlice_one {l : List Nat} {q : Nat} (h : q + 1 ≤ l.length) :
    listSlice l q 1 = [l.getD q 0] := by
  rw [listSlice_eq_map h]
  simp [List.range_succ]

lemma listSlice_two {l : List Nat} {q : Nat} (h : q + 2 ≤ l.length) :
    listSlice l q 2 = [l.getD q 0, l.getD (q + 1) 0] := by
  rw [listSlice_eq_map h]
  simp [List.range_succ]

lemma listSlice_three {l : List Nat} {q : Nat} (h : q + 3 ≤ l.length) :
    listSlice l q 3 = [l.getD q 0, l.getD (q + 1) 0, l.getD (q + 2) 0] := by
  rw [listSlice_eq_map h]
  simp [List.range_succ]

lemma listSlice_four {l : List Nat} {q : Nat} (h : q + 4 ≤ l.length) :
    listSlice l q 4 = [l.getD q 0, l.getD (q + 1) 0, l.getD (q + 2) 0,
      l.getD (q + 3) 0] := by
  rw [listSlice_eq_map h]
  simp [List.range_succ]

/-! ## The representation invariant of a loaded matcher -/

/-- The structural facts a well-formed compiled archive of `dict` establishes
about the loaded matcher state: index/table sizes agree, the recorded length
bounds hold, every bucket record is an in-store slice of a dictionary pattern
of length at least 5, records of one bucket are pairwise distinct patterns,
every long pattern is reachable through the Bloom filter and the bucket
probe, and the short-matcher tables are exactly the patterns of lengths 1-4. -/
structure Represents (m : Matcher) (dict : List (List Nat)) : Prop where
  idx_len : m.index_array.length = m.table_size
  ts_pos : 1 ≤ m.table_size
  dict_ne : ∀ p ∈ dict, 1 ≤ p.length
  small_le : ∀ p ∈ dict, m.smallest ≤ p.length
  le_large : ∀ p ∈ dict, p.length ≤ m.largest
  bucket_wf : ∀ so ∈ m.index_array, so ≠ EMPTY_SLOT →
    ∀ j < bucket_count m.bucket_data so,
      5 ≤ rec_len m.bucket_data so j ∧
      rec_off m.bucket_data so j + rec_len m.bucket_data so j ≤
        m.pattern_store.length ∧
      listSlice m.pattern_store (rec_off m.bucket_data so j)
        (rec_len m.bucket_data so j) ∈ dict
  bucket_distinct : ∀ so ∈ m.index_array, so ≠ EMPTY_SLOT →
    ∀ j < bucket_count m.bucket_data so, ∀ j' < bucket_count m.bucket_data so,
      j ≠ j' →
      listSlice m.pattern_store (rec_off m.bucket_data so j)
          (rec_len m.bucket_data so j) ≠
        listSlice m.pattern_store (rec_off m.bucket_data so j')
          (rec_len m.bucket_data so j')
  long_complete : ∀ p ∈ dict, 5 ≤ p.length →
    bloom_filter_query m.bf
      (pack_gram (p.getD 0 0) (p.getD 1 0) (p.getD 2 0) (p.getD 3 0)) = true ∧
    ∃ so ∈ (probe_bucket m.index_array m.bucket_data (m.table_size - 1)
        (pack_gram (p.getD 0 0) (p.getD 1 0) (p.getD 2 0) (p.getD 3 0))).toList,
      ∃ j < bucket_count m.bucket_data so,
        rec_len m.bucket_data so j = p.length ∧
        listSlice m.pattern_store (rec_off m.bucket_data so j) p.length = p
  sm4_complete : ∀ p ∈ dict, p.length = 4 →
    0 < m.sm.len4 ∧ short_matcher_query4_fast m.sm (p.getD 0 0) (p.getD 1 0)
      (p.getD 2 0) (p.getD 3 0) = true
  sm3_complete : ∀ p ∈ dict, p.length = 3 →
    0 < m.sm.len3 ∧ short_matcher_query3_fast m.sm (p.getD 0 0) (p.getD 1 0)
      (p.getD 2 0) = true
  sm2_complete : ∀ p ∈ dict, p.length = 2 →
    0 < m.sm.len2 ∧ short_matcher_query2_fast m.sm (p.getD 0 0) (p.getD 1 0) = true
  sm1_complete : ∀ p ∈ dict, p.length = 1 →
    0 < m.sm.len1 ∧ short_matcher_query1_fast m.sm (p.getD 0 0) = true
  sm4_sound : m.smallest ≤ 4 → ∀ b0 < 256, ∀ b1 < 256, ∀ b2 < 256, ∀ b3 < 256,
    short_matcher_query4_fast m.sm b0 b1 b2 b3 = true → [b0, b1, b2, b3] ∈ dict
  sm3_sound : m.smallest ≤ 4 → ∀ b0 < 256, ∀ b1 < 256, ∀ b2 < 256,
    short_matcher_query3_fast m.sm b0 b1 b2 = true → [b0, b1, b2] ∈ dict
  sm2_sound : m.smallest ≤ 4 → ∀ b0 < 256, ∀ b1 < 256,
    short_matcher_query2_fast m.sm b0 b1 = true → [b0, b1] ∈ dict
  sm1_sound : m.smallest ≤ 4 → ∀ b0 < 256,
    short_matcher_query1_fast m.sm b0 = true → [b0] ∈ dict

/-- A successful staged comparison identifies the haystack slice with the
store slice. -/
lemma slice_eq_of_bytesMatch {ps hay : List Nat} {off junk pos len : Nat}
    (h1 : 1 ≤ len) (hfit : pos + len ≤ hay.length) (hwf : off + len ≤ ps.length)
    (hbm : bytesMatch ps off hay junk pos len = true) :
    listSlice hay pos len = listSlice ps off len := by
  apply listSlice_eq_of_pointwise hfit hwf
  intro i hi
  have h := (bytesMatch_iff h1).mp hbm i hi
  rw [List.getD_eq_getElem hay 0 (by omega)]
  rw [List.getD_eq_getElem hay junk (by omega)] at h
  exact h

/-- A long dictionary pattern occurring at `q` is emitted by the long path
(all options false). -/
lemma long_path_complete {m : Matcher} {dict : List (List Nat)}
    {hay p : List Nat} {junk q : Nat}
    (hrep : Represents m dict) (hp : p ∈ dict) (hlong : 5 ≤ p.length)
    (hocc : listSlice hay q p.length = p) (hb : q + p.length ≤ hay.length) :
    (⟨q, p.length⟩ : MatchResult) ∈
      long_path m hay junk q false false false false false := by
  obtain ⟨hbloom, so, hso, j, hj, hlen, hslice⟩ := hrep.long_complete p hp hlong
  have hprobe : probe_bucket m.index_array m.bucket_data (m.table_size - 1)
      (pack_gram (p.getD 0 0) (p.getD 1 0) (p.getD 2 0) (p.getD 3 0)) = some so := by
    simpa using hso
  have h0 : hay.getD q junk = p.getD 0 0 := occ_getD hocc hb (i := 0) (by omega) junk 0
  have h1 : hay.getD (q + 1) junk = p.getD 1 0 := occ_getD hocc hb (by omega) junk 0
  have h2 : hay.getD (q + 2) junk = p.getD 2 0 := occ_getD hocc hb (by omega) junk 0
  have h3 : hay.getD (q + 3) junk = p.getD 3 0 := occ_getD hocc hb (by omega) junk 0
  have hgate : 5 ≤ m.largest ∧ 4 ≤ hay.length - q :=
    ⟨le_trans hlong (hrep.le_large p hp), by omega⟩
  rw [long_path, if_pos hgate, h0, h1, h2, h3, if_pos hbloom, hprobe]
  have hlenidx : m.index_array.length = (m.table_size - 1) + 1 := by
    have ha := hrep.idx_len
    have hb' := hrep.ts_pos
    omega
  have hsound := probe_bucket_sound hlenidx hprobe
  have hwf := hrep.bucket_wf so hsound.1 hsound.2.1 j hj
  have hw2 := hwf.2.1
  have hbm : bytesMatch m.pattern_store (rec_off m.bucket_data so j) hay junk q
      (rec_len m.bucket_data so j) = true := by
    rw [bytesMatch_iff (by omega)]
    intro i hi
    have hip : i < p.length := by omega
    have he1 : hay.getD (q + i) junk = p.getD i 0 := occ_getD hocc hb hip junk 0
    have he2 : m.pattern_store.getD (rec_off m.bucket_data so j + i) 0 = p.getD i 0 :=
      occ_getD hslice (by omega) hip 0 0
    rw [he1, he2]
  have hfit : rec_len m.bucket_data so j ≤ hay.length - q := by omega
  have hmem := scan_bucket_complete hj hfit hbm
  rw [hlen] at hmem
  exact hmem

/-- Every dictionary occurrence is in the raw (pre-sort) match stream when
all options are false. -/
lemma scan_complete {m : Matcher} {dict : List (List Nat)} {hay p : List Nat}
    {junk q : Nat}
    (hrep : Represents m dict) (hp : p ∈ dict)
    (hocc : listSlice hay q p.length = p) (hb : q + p.length ≤ hay.length) :
    (⟨q, p.length⟩ : MatchResult) ∈
      all_matches m hay junk false false false false false := by
  have hne := hrep.dict_ne p hp
  have hq : q < hay.length := by omega
  apply all_matches_of_position hq
  rcases Nat.lt_or_ge p.length 5 with hshort | hlong
  · have hsm : m.smallest ≤ 4 := le_trans (hrep.small_le p hp) (by omega)
    have hcase : p.length = 1 ∨ p.length = 2 ∨ p.length = 3 ∨ p.length = 4 := by omega
    have h0 : hay.getD q junk = p.getD 0 0 := occ_getD hocc hb (i := 0) (by omega) junk 0
    rcases hcase with hc | hc | hc | hc
    · obtain ⟨hl1, hq1⟩ := hrep.sm1_complete p hp hc
      rw [← h0] at hq1
      rw [hc]
      exact position_matches_of_short hsm
        (Or.inr (Or.inr (Or.inr (short_path1_complete hl1 hq1))))
    · obtain ⟨hl2, hq2⟩ := hrep.sm2_complete p hp hc
      have h1 : hay.getD (q + 1) junk = p.getD 1 0 := occ_getD hocc hb (by omega) junk 0
      rw [← h0, ← h1] at hq2
      rw [hc]
      exact position_matches_of_short hsm
        (Or.inr (Or.inr (Or.inl (short_path2_complete hl2 (by omega) hq2))))
    · obtain ⟨hl3, hq3⟩ := hrep.sm3_complete p hp hc
      have h1 : hay.getD (q + 1) junk = p.getD 1 0 := occ_getD hocc hb (by omega) junk 0
      have h2 : hay.getD (q + 2) junk = p.getD 2 0 := occ_getD hocc hb (by omega) junk 0
      rw [← h0, ← h1, ← h2] at hq3
      rw [hc]
      exact position_matches_of_short hsm
        (Or.inr (Or.inl (short_path3_complete hl3 (by omega) hq3)))
    · obtain ⟨hl4, hq4⟩ := hrep.sm4_complete p hp hc
      have h1 : hay.getD (q + 1) junk = p.getD 1 0 := occ_getD hocc hb (by omega) junk 0
      have h2 : hay.getD (q + 2) junk = p.getD 2 0 := occ_getD hocc hb (by omega) junk 0
      have h3 : hay.getD (q + 3) junk = p.getD 3 0 := occ_getD hocc hb (by omega) junk 0
      rw [← h0, ← h1, ← h2, ← h3] at hq4
      rw [hc]
      exact position_matches_of_short hsm
        (Or.inl (short_path4_complete hl4 (by omega) hq4))
  · exact position_matches_of_long (long_path_complete hrep hp hlong hocc hb)

/-- An in-bounds default-`junk` read agrees with the default-`0` read. -/
lemma getD_junk_eq {hay : List Nat} {n : Nat} (h : n < hay.length) (junk : Nat) :
    hay.getD n junk = hay.getD n 0 := by
  rw [List.getD_eq_getElem hay junk h, List.getD_eq_getElem hay 0 h]

/-- Everything in the raw match stream (all options false) is an in-bounds
occurrence of a dictionary pattern. -/
lemma scan_sound {m : Matcher} {dict : List (List Nat)} {hay : List Nat}
    {junk : Nat}
    (hrep : Represents m dict) (hbytes : ∀ b ∈ hay, b < 256) :
    ∀ r ∈ all_matches m hay junk false false false false false,
      r.offset + r.len ≤ hay.length ∧ listSlice hay r.offset r.len ∈ dict := by
  intro r hr
  obtain ⟨pos, hpos, hmem⟩ := mem_all_matches hrep.idx_len hrep.ts_pos hr
  rw [position_matches, if_neg (by simp)] at hmem
  rcases List.mem_append.mp hmem with hlongm | hshortm
  · obtain ⟨so, hso, hne, j, hj, hreq, hfit, hbm⟩ :=
      mem_long_path hrep.idx_len hrep.ts_pos hlongm
    obtain ⟨hw1, hw2, hw3⟩ := hrep.bucket_wf so hso hne j hj
    subst hreq
    refine ⟨show pos + rec_len m.bucket_data so j ≤ hay.length by omega, ?_⟩
    show listSlice hay pos (rec_len m.bucket_data so j) ∈ dict
    rw [slice_eq_of_bytesMatch (by omega) (by omega) hw2 hbm]
    exact hw3
  · rw [short_path] at hshortm
    split at hshortm
    · rename_i hsm
      have hb0 : hay.getD pos junk = hay.getD pos 0 := getD_junk_eq hpos junk
      rcases List.mem_append.mp hshortm with h123 | h1
      · rcases List.mem_append.mp h123 with h12 | h2
        · rcases List.mem_append.mp h12 with h4 | h3
          · obtain ⟨hreq, hl4, hfit4, hq4⟩ := mem_short_path4 h4
            subst hreq
            have hb1 : hay.getD (pos + 1) junk = hay.getD (pos + 1) 0 :=
              getD_junk_eq (by omega) junk
            have hb2 : hay.getD (pos + 2) junk = hay.getD (pos + 2) 0 :=
              getD_junk_eq (by omega) junk
            have hb3 : hay.getD (pos + 3) junk = hay.getD (pos + 3) 0 :=
              getD_junk_eq (by omega) junk
            rw [hb0, hb1, hb2, hb3] at hq4
            have hdm := hrep.sm4_sound hsm (hay.getD pos 0) (byte_getD_lt hbytes pos)
              (hay.getD (pos + 1) 0) (byte_getD_lt hbytes (pos + 1))
              (hay.getD (pos + 2) 0) (byte_getD_lt hbytes (pos + 2))
              (hay.getD (pos + 3) 0) (byte_getD_lt hbytes (pos + 3)) hq4
            refine ⟨show pos + 4 ≤ hay.length by omega, ?_⟩
            show listSlice hay pos 4 ∈ dict
            rw [listSlice_four (by omega)]
            exact hdm
          · obtain ⟨hreq, hl3, hfit3, hq3⟩ := mem_short_path3 h3
            subst hreq
            have hb1 : hay.getD (pos + 1) junk = hay.getD (pos + 1) 0 :=
              getD_junk_eq (by omega) junk
            have hb2 : hay.getD (pos + 2) junk = hay.getD (pos + 2) 0 :=
              getD_junk_eq (by omega) junk
            rw [hb0, hb1, hb2] at hq3
            have hdm := hrep.sm3_sound hsm (hay.getD pos 0) (byte_getD_lt hbytes pos)
              (hay.getD (pos + 1) 0) (byte_getD_lt hbytes (pos + 1))
              (hay.getD (pos + 2) 0) (byte_getD_lt hbytes (pos + 2)) hq3
            refine ⟨show pos + 3 ≤ hay.length by omega, ?_⟩
            show listSlice hay pos 3 ∈ dict
            rw [listSlice_three (by omega)]
            exact hdm
        · obtain ⟨hreq, hl2, hfit2, hq2⟩ := mem_short_path2 h2
          subst hreq
          have hb1 : hay.getD (pos + 1) junk = hay.getD (pos + 1) 0 :=
            getD_junk_eq (by omega) junk
          rw [hb0, hb1] at hq2
          have hdm := hrep.sm2_sound hsm (hay.getD pos 0) (byte_getD_lt hbytes pos)
            (hay.getD (pos + 1) 0) (byte_getD_lt hbytes (pos + 1)) hq2
          refine ⟨show pos + 2 ≤ hay.length by omega, ?_⟩
          show listSlice hay pos 2 ∈ dict
          rw [listSlice_two (by omega)]
          exact hdm
      · obtain ⟨hreq, hl1, hq1⟩ := mem_short_path1 h1
        subst hreq
        rw [hb0] at hq1
        have hdm := hrep.sm1_sound hsm (hay.getD pos 0) (byte_getD_lt hbytes pos) hq1
        refine ⟨show pos + 1 ≤ hay.length by omega, ?_⟩
        show listSlice hay pos 1 ∈ dict
        rw [listSlice_one (by omega)]
        exact hdm
    · simp at hshortm

/-! ## No duplicate (offset, length) pairs in the raw stream -/

lemma scan_bucket_nodup {m : Matcher} {dict : List (List Nat)} {hay : List Nat}
    {junk so pos : Nat} {wb wp ws ls le : Bool}
    (hrep : Represents m dict) (hso : so ∈ m.index_array) (hne : so ≠ EMPTY_SLOT) :
    (scan_bucket_and_append m.bucket_data m.pattern_store hay junk so pos
      wb wp ws ls le).Nodup := by
  have hpair : List.Pairwise
      (fun j j' => j < j' ∧ j < bucket_count m.bucket_data so ∧
        j' < bucket_count m.bucket_data so)
      (List.range (bucket_count m.bucket_data so)) :=
    (List.pairwise_lt_range _).imp_of_mem
      (fun ha hb h => ⟨h, List.mem_range.mp ha, List.mem_range.mp hb⟩)
  rw [scan_bucket_and_append]
  refine List.Pairwise.filterMap _ ?_ hpair
  intro j j' hjj b hb b' hb'
  obtain ⟨hlt, hj, hj'⟩ := hjj
  rw [Option.mem_def] at hb hb'
  obtain ⟨hbv, hfit1, hbm1⟩ := chain7_some hb
  obtain ⟨hbv', hfit1', hbm1'⟩ := chain7_some hb'
  have hbm : bytesMatch m.pattern_store (rec_off m.bucket_data so j) hay junk pos
      (rec_len m.bucket_data so j) = true := by
    simpa using hbm1
  have hbm' : bytesMatch m.pattern_store (rec_off m.bucket_data so j') hay junk pos
      (rec_len m.bucket_data so j') = true := by
    simpa using hbm1'
  obtain ⟨hw1, hw2, _⟩ := hrep.bucket_wf so hso hne j hj
  obtain ⟨hw1', hw2', _⟩ := hrep.bucket_wf so hso hne j' hj'
  by_cases hll : rec_len m.bucket_data so j = rec_len m.bucket_data so j'
  · exfalso
    apply hrep.bucket_distinct so hso hne j hj j' hj' (by omega)
    have he1 : listSlice hay pos (rec_len m.bucket_data so j) =
        listSlice m.pattern_store (rec_off m.bucket_data so j)
          (rec_len m.bucket_data so j) :=
      slice_eq_of_bytesMatch (by omega) (by omega) hw2 hbm
    have he2 : listSlice hay pos (rec_len m.bucket_data so j') =
        listSlice m.pattern_store (rec_off m.bucket_data so j')
          (rec_len m.bucket_data so j') :=
      slice_eq_of_bytesMatch (by omega) (by omega) hw2' hbm'
    rw [← he1, ← he2, hll]
  · rw [hbv, hbv']
    intro hcontra
    exact hll (congrArg MatchResult.len hcontra)

lemma long_path_nodup {m : Matcher} {dict : List (List Nat)} {hay : List Nat}
    {junk pos : Nat} {wb wp ws ls le : Bool} (hrep : Represents m dict) :
    (long_path m hay junk pos wb wp ws ls le).Nodup := by
  rw [long_path]
  split
  · split
    · cases hprobe : probe_bucket m.index_array m.bucket_data (m.table_size - 1)
          (pack_gram (hay.getD pos junk) (hay.getD (pos + 1) junk)
            (hay.getD (pos + 2) junk) (hay.getD (pos + 3) junk)) with
      | none => simp
      | some so =>
        have hlenidx : m.index_array.length = (m.table_size - 1) + 1 := by
          have ha := hrep.idx_len
          have hb := hrep.ts_pos
          omega
        have hsound := probe_bucket_sound hlenidx hprobe
        exact scan_bucket_nodup hrep hsound.1 hsound.2.1
    · simp
  · simp

lemma short_path4_sublist (m : Matcher) (hay : List Nat) (junk pos : Nat)
    (wb wp ws ls le : Bool) :
    List.Sublist (short_path4 m hay junk pos wb wp ws ls le) [⟨pos, 4⟩] := by
  rw [short_path4]
  split
  · split
    · split
      · exact List.Sublist.refl _
      · exact List.nil_sublist _
    · exact List.nil_sublist _
  · exact List.nil_sublist _

lemma short_path3_sublist (m : Matcher) (hay : List Nat) (junk pos : Nat)
    (wb wp ws ls le : Bool) :
    List.Sublist (short_path3 m hay junk pos wb wp ws ls le) [⟨pos, 3⟩] := by
  rw [short_path3]
  split
  · split
    · split
      · exact List.Sublist.refl _
      · exact List.nil_sublist _
    · exact List.nil_sublist _
  · exact List.nil_sublist _

lemma short_path2_sublist (m : Matcher) (hay : List Nat) (junk pos : Nat)
    (wb wp ws : Bool) :
    List.Sublist (short_path2 m hay junk pos wb wp ws) [⟨pos, 2⟩] := by
  rw [short_path2]
  split
  · split
    · split
      · exact List.Sublist.refl _
      · exact List.nil_sublist _
    · exact List.nil_sublist _
  · exact List.nil_sublist _

lemma short_path1_sublist (m : Matcher) (hay : List Nat) (junk pos : Nat)
    (wb wp ws : Bool) :
    List.Sublist (short_path1 m hay junk pos wb wp ws) [⟨pos, 1⟩] := by
  rw [short_path1]
  split
  · split
    · split
      · exact List.Sublist.refl _
      · exact List.nil_sublist _
    · exact List.nil_sublist _
  · exact List.nil_sublist _

lemma short_path_nodup (m : Matcher) (hay : List Nat) (junk pos : Nat)
    (wb wp ws ls le : Bool) :
    (short_path m hay junk pos wb wp ws ls le).Nodup := by
  rw [short_path]
  split
  · have hsub := (((short_path4_sublist m hay junk pos wb wp ws ls le).append
      (short_path3_sublist m hay junk pos wb wp ws ls le)).append
      (short_path2_sublist m hay junk pos wb wp ws)).append
      (short_path1_sublist m hay junk pos wb wp ws)
    have hnd : List.Nodup (([⟨pos, 4⟩] ++ [⟨pos, 3⟩] ++ [⟨pos, 2⟩] ++
        [⟨pos, 1⟩] : List MatchResult)) := by
      simp [MatchResult.mk.injEq]
    exact List.Nodup.sublist hsub hnd
  · simp

lemma position_matches_nodup {m : Matcher} {dict : List (List Nat)}
    {hay : List Nat} {junk pos : Nat} {wb wp ws ls le : Bool}
    (hrep : Represents m dict) :
    (position_matches m hay junk pos wb wp ws ls le).Nodup := by
  rw [position_matches]
  split
  · simp
  · refine List.Nodup.append (long_path_nodup hrep)
      (short_path_nodup m hay junk pos wb wp ws ls le) ?_
    intro r hrl hrs
    obtain ⟨so, hso, hne, j, hj, hreq, _, _⟩ :=
      mem_long_path hrep.idx_len hrep.ts_pos hrl
    obtain ⟨hw1, _, _⟩ := hrep.bucket_wf so hso hne j hj
    obtain ⟨hoff, hlen⟩ := mem_short_path hrs
    rw [hreq] at hlen
    simp at hlen
    omega

lemma all_matches_nodup {m : Matcher} {dict : List (List Nat)} {hay : List Nat}
    {junk : Nat} {wb wp ws ls le : Bool} (hrep : Represents m dict) :
    (all_matches m hay junk wb wp ws ls le).Nodup := by
  rw [all_matches, List.nodup_flatMap]
  constructor
  · intro pos hpos
    exact position_matches_nodup hrep
  · refine List.Pairwise.imp ?_ (List.pairwise_lt_range hay.length)
    intro a b hab
    intro r hra hrb
    have h1 := (mem_position_matches hrep.idx_len hrep.ts_pos hra).1
    have h2 := (mem_position_matches hrep.idx_len hrep.ts_pos hrb).1
    omega

/-- C1: Scan completeness and soundness with all option booleans false.
Under the compiled-dictionary representation invariant: (a) for every
dictionary pattern `p` and every position `q` at which the haystack bytes
`q..q+|p|` literally equal `p`, the scan returns the result `(q, |p|)`;
(b) every returned result is an in-bounds occurrence whose bytes equal some
dictionary pattern; and (c) no (position, length) pair appears twice. -/
theorem core_match_scan_correct (m : Matcher) (dict : List (List Nat))
    (hay : List Nat) (junk : Nat)
    (hrep : Represents m dict) (hbytes : ∀ b ∈ hay, b < 256) :
    (∀ p ∈ dict, ∀ q, listSlice hay q p.length = p → q + p.length ≤ hay.length →
      (⟨q, p.length⟩ : MatchResult) ∈
        core_match m hay junk false false false false false false false) ∧
    (∀ r ∈ core_match m hay junk false false false false false false false,
      r.offset + r.len ≤ hay.length ∧ listSlice hay r.offset r.len ∈ dict) ∧
    (core_match m hay junk false false false false false false false).Nodup := by
  have hperm := core_match_all_false_perm m hay junk false false false false false
  refine ⟨?_, ?_, ?_⟩
  · intro p hp q hocc hb
    exact hperm.mem_iff.mpr (scan_complete hrep hp hocc hb)
  · intro r hr
    exact scan_sound hrep hbytes r (hperm.mem_iff.mp hr)
  · exact hperm.nodup_iff.mpr (all_matches_nodup hrep)

/-- Dictionary `{"hello"}` for the scan-correctness instance. -/
def c1Dict : List (List Nat) := [[104, 101, 108, 108, 111]]

/-- Haystack `"xhello"`: the single pattern occurs at offset 1. -/
def c1Hay : List Nat := [120, 104, 101, 108, 108, 111]

/-- Serialized bucket data of the single occupied bucket: the gram key of
`"hell"` (little-endian bytes), count 1, one record (offset 0, length 5). -/
def c1bd : List Nat :=
  [108, 108, 101, 104, 1, 0, 0, 0,
   0, 0, 0, 0, 0, 0, 0, 0, 5, 0, 0, 0, 0, 0, 0, 0]

/-- Matcher state as loaded from the compiled archive of `{"hello"}`: one-slot
table, 64-bit Bloom filter holding the gram of `"hell"`, empty short matcher,
`smallest = largest = 5`. -/
def c1Matcher : Matcher :=
  ⟨[104, 101, 108, 108, 111], bloom_filter_add ⟨64, fun _ => 0⟩ 1751477356,
    [0], c1bd, 1, 5, 5, ⟨fun _ => 0, fun _ => 0, 0, 0, 0, 0, [], []⟩,
    none, false, false⟩

/-- C1 witness: the `{"hello"}` matcher satisfies the representation
invariant, and the scan of `"xhello"` contains the occurrence `(1, 5)`. -/
theorem core_match_scan_correct_witness :
    Represents c1Matcher c1Dict ∧ (∀ b ∈ c1Hay, b < 256) ∧
      (⟨1, 5⟩ : MatchResult) ∈
        core_match c1Matcher c1Hay 0 false false false false false false false := by
  have hrep : Represents c1Matcher c1Dict := by
    constructor <;> decide
  refine ⟨hrep, by decide, ?_⟩
  exact (core_match_scan_correct c1Matcher c1Dict c1Hay 0 hrep (by decide)).1
    [104, 101, 108, 108, 111] (by decide) 1 (by decide) (by decide)

end OmegaMatch
